import Mathlib

/-!
# Verification of the TruthTable-Generator expression core (src/script.js)

Shallow embedding of the expression front end: operator registry, tokenizer,
shunting-yard conversion to postfix, AST construction, the two evaluation
strategies, sub-expression collection, variable collection and the row
enumerator.  Definitions follow the JavaScript source closely; JS objects are
modelled as functions `String → Option Bool`, JS `Map`s as association lists,
thrown errors as `Except String`.
-/

namespace TruthTable

/-! ## Operator registry (`Operators`, script.js lines 5-12) -/

inductive OpKey where
  | NOT | AND | XOR | OR | IMP | IFF
deriving DecidableEq, Repr

inductive Assoc where
  | left | right
deriving DecidableEq, Repr

def opArity : OpKey → Nat
  | .NOT => 1
  | _ => 2

def opPrec : OpKey → Nat
  | .NOT => 5
  | .AND => 4
  | .XOR => 3
  | .OR => 2
  | .IMP => 1
  | .IFF => 0

def opAssoc : OpKey → Assoc
  | .NOT => .right
  | .AND => .left
  | .XOR => .left
  | .OR => .left
  | .IMP => .right
  | .IFF => .left

/-- Truth function of the single arity-1 operator (JS `a => !a`).  The other
keys never reach an arity-1 call site; their value here is the identity. -/
def opFn1 : OpKey → Bool → Bool
  | .NOT, a => !a
  | _, a => a

/-- Truth functions of the arity-2 operators.  `NOT` never reaches an arity-2
call site; like its JS counterpart `a => !a` it ignores the second operand. -/
def opFn2 : OpKey → Bool → Bool → Bool
  | .AND, a, b => a && b
  | .XOR, a, b => a != b
  | .OR, a, b => a || b
  | .IMP, a, b => !a || b
  | .IFF, a, b => a == b
  | .NOT, a, _ => !a

/-! ## Lexeme tables (script.js lines 16-54) -/

/-- `OperatorLexemes`: ordered surface-form table, longer literals first. -/
def OperatorLexemes : List (String × OpKey) :=
  [ ("<=>", .IFF), ("<->", .IFF), ("↔", .IFF), ("iff", .IFF),
    ("->", .IMP), ("=>", .IMP), ("→", .IMP), ("implies", .IMP),
    ("⊕", .XOR), ("^", .XOR), ("xor", .XOR),
    ("∧", .AND), ("&", .AND), ("and", .AND),
    ("∨", .OR), ("|", .OR), ("or", .OR),
    ("¬", .NOT), ("~", .NOT), ("!", .NOT), ("not", .NOT) ]

def ConstLexemes : List (String × Bool) :=
  [ ("true", true), ("t", true), ("1", true),
    ("false", false), ("f", false), ("0", false) ]

/-! ## Character classes (script.js lines 56-59) -/

def isLetter (c : Char) : Bool :=
  decide (('A' ≤ c ∧ c ≤ 'Z') ∨ ('a' ≤ c ∧ c ≤ 'z'))

def isDigit (c : Char) : Bool :=
  decide ('0' ≤ c ∧ c ≤ '9')

def isIdentStart (c : Char) : Bool :=
  isLetter c || c == '_'

def isIdentPart (c : Char) : Bool :=
  isLetter c || isDigit c || c == '_'

/-- The characters removed from both ends by JS `String.prototype.trim`. -/
def jsWSChars : List Char :=
  [' ', '\t', '\n', '\r', '\x0b', '\x0c',
   Char.ofNat 0xa0, Char.ofNat 0x1680, Char.ofNat 0x2000, Char.ofNat 0x2001,
   Char.ofNat 0x2002, Char.ofNat 0x2003, Char.ofNat 0x2004, Char.ofNat 0x2005,
   Char.ofNat 0x2006, Char.ofNat 0x2007, Char.ofNat 0x2008, Char.ofNat 0x2009,
   Char.ofNat 0x200a, Char.ofNat 0x2028, Char.ofNat 0x2029, Char.ofNat 0x202f,
   Char.ofNat 0x205f, Char.ofNat 0x3000, Char.ofNat 0xfeff]

def isJsWS (c : Char) : Bool :=
  jsWSChars.contains c

/-- Model of JS `input.trim()`: strip `jsWSChars` from both ends. -/
def jsTrimList (l : List Char) : List Char :=
  ((l.dropWhile isJsWS).reverse.dropWhile isJsWS).reverse

/-- JS `String.prototype.toLowerCase` on the ASCII identifier alphabet. -/
def toLowerStr (s : String) : String :=
  String.mk (s.data.map Char.toLower)

/-! ## Tokens -/

inductive Token where
  | lparen
  | rparen
  | op (value : OpKey) (raw : String)
  | const (value : Bool) (raw : String)
  | ident (value : String)
deriving DecidableEq, Repr

/-! ## Tokenizer (`tokenize`, script.js lines 61-128) -/

/-- `matchOperatorAt`: first lexeme of the table matching at the position. -/
def matchOperatorAt (l : List Char) : Option (String × OpKey) :=
  OperatorLexemes.find? (fun p => p.1.data.isPrefixOf l)

/-- Main scanning loop of `tokenize`.  `fuel` only serves structural
recursion: every iteration of the JS loop consumes at least one character, so
initial fuel `l.length` is never exhausted.  `i` is the 0-based position used
in error messages. -/
def tokenizeGo : Nat → List Char → Nat → Except String (List Token)
  | _, [], _ => .ok []
  | 0, _ :: _, _ => .error "tokenizer: out of fuel"
  | fuel + 1, c :: cs, i =>
    if c = ' ' ∨ c = '\t' ∨ c = '\n' ∨ c = '\r' then
      tokenizeGo fuel cs (i + 1)
    else if c = '(' then
      (tokenizeGo fuel cs (i + 1)).map (fun ts => Token.lparen :: ts)
    else if c = ')' then
      (tokenizeGo fuel cs (i + 1)).map (fun ts => Token.rparen :: ts)
    else
      match matchOperatorAt (c :: cs) with
      | some (m, k) =>
        (tokenizeGo fuel ((c :: cs).drop m.data.length) (i + m.data.length)).map
          (fun ts => Token.op k m :: ts)
      | none =>
        if isIdentStart c then
          let run := c :: cs.takeWhile isIdentPart
          let wordRaw := String.mk run
          let word := toLowerStr wordRaw
          let tk :=
            match ConstLexemes.lookup word with
            | some b => Token.const b wordRaw
            | none =>
              match OperatorLexemes.find? (fun o => o.1 == word) with
              | some o => Token.op o.2 wordRaw
              | none => Token.ident wordRaw
          (tokenizeGo fuel (cs.dropWhile isIdentPart) (i + run.length)).map
            (fun ts => tk :: ts)
        else if isDigit c then
          let run := c :: cs.takeWhile isDigit
          let numStr := String.mk run
          if numStr = "0" ∨ numStr = "1" then
            (tokenizeGo fuel (cs.dropWhile isDigit) (i + run.length)).map
              (fun ts => Token.const (numStr = "1") numStr :: ts)
          else
            .error ("Unexpected number '" ++ numStr ++
              "'. Only 0 or 1 are allowed as constants.")
        else
          .error ("Unexpected character '" ++ String.mk [c] ++
            "' at position " ++ toString (i + 1))

def tokenizeList (l : List Char) (i : Nat) : Except String (List Token) :=
  tokenizeGo l.length l i

def tokenize (input : String) : Except String (List Token) :=
  tokenizeList (jsTrimList input.data) 0

/-! ## Shunting-yard (`toRPN`, script.js lines 130-181) -/

/-- The inner `while` of the operator case: pop while the stack top is an
operator of strictly higher precedence, or equal precedence with the incoming
operator left-associative.  Returns (tokens popped to output, rest of stack). -/
def popOps (k : OpKey) : List Token → List Token × List Token
  | [] => ([], [])
  | t :: rest =>
    match t with
    | Token.op tk _ =>
      if opPrec tk > opPrec k ∨ (opPrec tk = opPrec k ∧ opAssoc k = .left) then
        let (o, s) := popOps k rest
        (t :: o, s)
      else ([], t :: rest)
    | _ => ([], t :: rest)

/-- The right-parenthesis case: pop to output until a left parenthesis is
found and discarded; `none` when there is no matching `(`. -/
def popUntilLParen : List Token → Option (List Token × List Token)
  | [] => none
  | t :: rest =>
    match t with
    | Token.lparen => some ([], rest)
    | _ => (popUntilLParen rest).map (fun p => (t :: p.1, p.2))

/-- Token loop of `toRPN` over (output so far, operator stack).  The JS
`prevType` variable is assigned but never read, and the `Operators[tok.value]`
lookup cannot fail for an `OpKey`; both are omitted. -/
def toRPNGo : List Token → List Token → List Token → Except String (List Token)
  | [], out, ops =>
    if ops.contains Token.lparen ∨ ops.contains Token.rparen then
      .error "Mismatched parentheses"
    else .ok (out ++ ops)
  | t :: rest, out, ops =>
    match t with
    | Token.ident _ => toRPNGo rest (out ++ [t]) ops
    | Token.const _ _ => toRPNGo rest (out ++ [t]) ops
    | Token.op k _ =>
      let (p, s) := popOps k ops
      toRPNGo rest (out ++ p) (t :: s)
    | Token.lparen => toRPNGo rest out (t :: ops)
    | Token.rparen =>
      match popUntilLParen ops with
      | none => .error "Mismatched parentheses: missing \x22(\x22"
      | some (p, s) => toRPNGo rest (out ++ p) s

def toRPN (tokens : List Token) : Except String (List Token) :=
  toRPNGo tokens [] []

/-! ## AST (`rpnToAst`, script.js lines 184-215) -/

inductive Node where
  | var (id : Nat) (name : String)
  | const (id : Nat) (value : Bool)
  | unop (id : Nat) (op : OpKey) (a : Node)
  | binop (id : Nat) (op : OpKey) (a : Node) (b : Node)
deriving DecidableEq, Repr

def Node.nid : Node → Nat
  | .var id _ => id
  | .const id _ => id
  | .unop id _ _ => id
  | .binop id _ _ _ => id

/-- `node.type === 'op'` in JS. -/
def Node.isOpNode : Node → Bool
  | .unop .. => true
  | .binop .. => true
  | _ => false

/-- Stack walk of `rpnToAst`; `nid` is the monotone `nextId` counter. -/
def rpnToAstGo : List Token → List Node → Nat → Except String Node
  | [], stack, _ =>
    match stack with
    | [n] => .ok n
    | _ => .error "Invalid expression: could not build AST"
  | t :: rest, stack, nid =>
    match t with
    | Token.ident name => rpnToAstGo rest (Node.var nid name :: stack) (nid + 1)
    | Token.const v _ => rpnToAstGo rest (Node.const nid v :: stack) (nid + 1)
    | Token.op k _ =>
      if opArity k = 1 then
        match stack with
        | a :: s => rpnToAstGo rest (Node.unop nid k a :: s) (nid + 1)
        | [] => .error "Invalid expression: missing operand for unary operator"
      else
        match stack with
        | b :: a :: s => rpnToAstGo rest (Node.binop nid k a b :: s) (nid + 1)
        | _ => .error "Invalid expression: missing operands for binary operator"
    | _ => .error "Unexpected token in AST build"

def rpnToAst (rpn : List Token) : Except String Node :=
  rpnToAstGo rpn [] 1

/-! ## Rendering (`OpLabel`, `formatNode`, script.js lines 217-242) -/

def opLabel : OpKey → String
  | .NOT => "!"
  | .AND => "&"
  | .OR => "|"
  | .XOR => "^"
  | .IMP => "->"
  | .IFF => "<->"

/-- Canonical rendering.  Arity-1 nodes only ever carry `NOT`
(JS checks `node.op === 'NOT'`; `NOT` is the sole arity-1 operator). -/
def formatNode : Node → String
  | .var _ name => name
  | .const _ v => if v then "T" else "F"
  | .unop _ _ a =>
    let inner := formatNode a
    if a.isOpNode then "!(" ++ inner ++ ")" else "!" ++ inner
  | .binop _ k a b =>
    "(" ++ formatNode a ++ " " ++ opLabel k ++ " " ++ formatNode b ++ ")"

/-! ## Sub-expression collection (`collectSubexpressions`, lines 244-260) -/

/-- The recursive `visit`, threading (seen labels, ordered output). -/
def csVisit (n : Node) (st : List String × List (Node × String)) :
    List String × List (Node × String) :=
  match n with
  | .var .. => st
  | .const .. => st
  | .unop id k a =>
    let st1 := csVisit a st
    let label := formatNode (.unop id k a)
    if st1.1.contains label then st1
    else (label :: st1.1, st1.2 ++ [(Node.unop id k a, label)])
  | .binop id k a b =>
    let st1 := csVisit b (csVisit a st)
    let label := formatNode (.binop id k a b)
    if st1.1.contains label then st1
    else (label :: st1.1, st1.2 ++ [(Node.binop id k a b, label)])

def collectSubexpressions (root : Node) : List (Node × String) :=
  (csVisit root ([], [])).2

/-! ## Evaluation (`computeValue` lines 262-287, `evalRPN` lines 289-317) -/

/-- A variable assignment: the JS `env` object. -/
def Env : Type := String → Option Bool

/-- Memoized per-node evaluation; the cache is the JS `Map` keyed by node
identity.  Dispatch is on the node's stored shape: arity-1 nodes were built
with one child, arity-2 nodes with two. -/
def computeValue (n : Node) (env : Env) (cache : List (Nat × Bool)) :
    Except String (Bool × List (Nat × Bool)) :=
  match cache.lookup n.nid with
  | some v => .ok (v, cache)
  | none =>
    match n with
    | .var id name =>
      match env name with
      | some b => .ok (b, (id, b) :: cache)
      | none => .error ("Unbound variable '" ++ name ++ "'")
    | .const id v => .ok (v, (id, v) :: cache)
    | .unop id k a =>
      match computeValue a env cache with
      | .error e => .error e
      | .ok (va, c1) =>
        let val := opFn1 k va
        .ok (val, (id, val) :: c1)
    | .binop id k a b =>
      match computeValue a env cache with
      | .error e => .error e
      | .ok (va, c1) =>
        match computeValue b env c1 with
        | .error e => .error e
        | .ok (vb, c2) =>
          let val := opFn2 k va vb
          .ok (val, (id, val) :: c2)

/-- Direct postfix stack evaluation. -/
def evalRPNGo (env : Env) : List Token → List Bool → Except String Bool
  | [], stack =>
    match stack with
    | [v] => .ok v
    | _ => .error "Invalid expression: leftover values after evaluation"
  | t :: rest, stack =>
    match t with
    | Token.ident name =>
      match env name with
      | some v => evalRPNGo env rest (v :: stack)
      | none => .error ("Unbound variable '" ++ name ++ "'")
    | Token.const v _ => evalRPNGo env rest (v :: stack)
    | Token.op k _ =>
      if opArity k = 1 then
        match stack with
        | a :: s => evalRPNGo env rest (opFn1 k a :: s)
        | [] => .error "Invalid expression: missing operand for unary operator"
      else
        match stack with
        | b :: a :: s => evalRPNGo env rest (opFn2 k a b :: s)
        | _ => .error "Invalid expression: missing operands for binary operator"
    | _ => .error "Unexpected token in evaluation"

def evalRPN (rpn : List Token) (env : Env) : Except String Bool :=
  evalRPNGo env rpn []

/-! ## Variable collection (`uniqueVariables`, lines 319-323) -/

/-- Strict code-point lexicographic comparison of character lists (the
comparison JS performs on strings). -/
def charListLt : List Char → List Char → Bool
  | [], [] => false
  | [], _ :: _ => true
  | _ :: _, [] => false
  | a :: as, b :: bs =>
    if a < b then true else if b < a then false else charListLt as bs

/-- Model of the `a.localeCompare(b) ≤ 0` comparator: primary comparison of
the lowercased strings by code point, tie-broken by code-point comparison of
the originals (total-order model of root-locale collation on ASCII identifier
names). -/
def lcLeB (a b : String) : Bool :=
  if charListLt (toLowerStr a).data (toLowerStr b).data then true
  else if charListLt (toLowerStr b).data (toLowerStr a).data then false
  else !(charListLt b.data a.data)

/-- Sorted insertion; `sortVars` models `Array.prototype.sort` with the
`localeCompare` comparator. -/
def sortInsert (x : String) : List String → List String
  | [] => [x]
  | y :: ys => if lcLeB x y then x :: y :: ys else y :: sortInsert x ys

def sortVars (l : List String) : List String :=
  l.foldr sortInsert []

/-- One step of the identifier scan: `if (t.type === 'ident') set.add(t.value)`
with the `Set` as a first-occurrence list. -/
def addIdent (acc : List String) (t : Token) : List String :=
  match t with
  | Token.ident v => if acc.contains v then acc else acc ++ [v]
  | _ => acc

/-- `uniqueVariables`: collect identifier values into a `Set` (first
occurrence kept), then sort ascending. -/
def uniqueVariables (tokens : List Token) : List String :=
  sortVars (tokens.foldl addIdent [])

/-! ## Row enumeration (`renderTable` body loop, script.js lines 363-413) -/

inductive RowOrder where
  | F_FIRST | T_FIRST
deriving DecidableEq, Repr

/-- `env[name] = v` on a JS object. -/
def envSet (e : Env) (name : String) (v : Bool) : Env :=
  fun s => if s = name then some v else e s

/-- The value assigned to the variable at sorted position `j` in row `i`
(`n` = number of variables): bit `(i >> (n - j - 1)) & 1`, read as `true` on
`1` under `F_FIRST` and on `0` under `T_FIRST`. -/
def rowBitVal (n : Nat) (ro : RowOrder) (i j : Nat) : Bool :=
  let bit := (i >>> (n - j - 1)) &&& 1
  match ro with
  | .F_FIRST => bit == 1
  | .T_FIRST => bit == 0

/-- The inner `for (let j ...)` loop building one row's `env`. -/
def mkRowEnvGo (n : Nat) (ro : RowOrder) (i : Nat) :
    List String → Nat → Env → Env
  | [], _, e => e
  | v :: vs, j, e => mkRowEnvGo n ro i vs (j + 1) (envSet e v (rowBitVal n ro i j))

def mkRowEnv (vars : List String) (ro : RowOrder) (i : Nat) : Env :=
  mkRowEnvGo vars.length ro i vars 0 (fun _ => none)

/-- One row's final value: `try { evalRPN } catch { false }`. -/
def rowResult (rpn : List Token) (env : Env) : Bool :=
  match evalRPN rpn env with
  | .ok v => v
  | .error _ => false

/-- The row loop of `renderTable`, stripped of DOM output: `1 << vars.length`
rows, each with its assignment and result-column value. -/
def enumerateRows (vars : List String) (rpn : List Token) (ro : RowOrder) :
    List (Env × Bool) :=
  (List.range (1 <<< vars.length)).map
    (fun i =>
      let env := mkRowEnv vars ro i
      (env, rowResult rpn env))

/-! ## Reference-side definitions used to state the properties -/

/-- Pure reference denotation of a node.  Unbound variables default to
`false`; every theorem uses it only under binding hypotheses. -/
def evalNodeD (n : Node) (env : Env) : Bool :=
  match n with
  | .var _ name => (env name).getD false
  | .const _ v => v
  | .unop _ k a => opFn1 k (evalNodeD a env)
  | .binop _ k a b => opFn2 k (evalNodeD a env) (evalNodeD b env)

/-- All node identities in a tree, root first. -/
def idsOf : Node → List Nat
  | .var id _ => [id]
  | .const id _ => [id]
  | .unop id _ a => id :: idsOf a
  | .binop id _ a b => id :: (idsOf a ++ idsOf b)

/-- Variable names occurring in a tree. -/
def nodeVars : Node → List String
  | .var _ name => [name]
  | .const _ _ => []
  | .unop _ _ a => nodeVars a
  | .binop _ _ a b => nodeVars a ++ nodeVars b

/-- `m` is a subterm of the given tree. -/
def Occurs (m : Node) : Node → Prop
  | .var id name => m = .var id name
  | .const id v => m = .const id v
  | .unop id k a => m = .unop id k a ∨ Occurs m a
  | .binop id k a b => m = .binop id k a b ∨ Occurs m a ∨ Occurs m b

/-- The spec's pop condition for the shunting-yard operator case. -/
def popCond (k : OpKey) (t : Token) : Bool :=
  match t with
  | Token.op tk _ =>
    decide (opPrec tk > opPrec k ∨ (opPrec tk = opPrec k ∧ opAssoc k = .left))
  | _ => false

/-- Post-order list of the combinator (non-leaf) subnodes. -/
def postOrderCombs : Node → List Node
  | .var .. => []
  | .const .. => []
  | .unop id k a => postOrderCombs a ++ [.unop id k a]
  | .binop id k a b => postOrderCombs a ++ postOrderCombs b ++ [.binop id k a b]

/-- First-occurrence de-duplication, as the spec words it: walk the list and
record each label only the first time it is seen. -/
def goDedup (acc : List String) : List String → List String
  | [] => acc
  | l :: ls => goDedup (if l ∈ acc then acc else acc ++ [l]) ls

def firstDedup (ls : List String) : List String :=
  goDedup [] ls

/-- Default row used by positional access in the statements. -/
def dfltRow : Env × Bool := (fun _ => none, false)

/-- All node identities of a stack of nodes. -/
def idsOfStack (stack : List Node) : List Nat :=
  match stack with
  | [] => []
  | n :: rest => idsOf n ++ idsOfStack rest

/-- A memoization cache is sound for a tree and an assignment when every
cached entry agrees with the denotation of every subterm carrying its key. -/
def CacheSound (root : Node) (env : Env) (cache : List (Nat × Bool)) : Prop :=
  ∀ p : Nat × Bool, p ∈ cache →
    ∀ m, Occurs m root → m.nid = p.1 → evalNodeD m env = p.2

/-! ## Round-trip machinery: the token and postfix sequences produced by
re-scanning a canonical rendering -/

/-- The token the identifier branch of the scanner builds from a scanned word:
const lexeme, word operator, or plain identifier. -/
def tkOfWord (w : String) : Token :=
  match ConstLexemes.lookup (toLowerStr w) with
  | some b => Token.const b w
  | none =>
    match OperatorLexemes.find? (fun o => o.1 == toLowerStr w) with
    | some o => Token.op o.2 w
    | none => Token.ident w

/-- A variable name exactly as the scanner reproduces it: a full identifier
run, no operator lexeme at its start, and classified back as an identifier. -/
def WFName (name : String) : Prop :=
  (match name.data with
   | [] => False
   | c :: cs => isIdentStart c = true ∧ ∀ x ∈ cs, isIdentPart x = true)
  ∧ (∀ p ∈ OperatorLexemes, p.1.data.isPrefixOf name.data = false)
  ∧ tkOfWord name = Token.ident name

/-- Shape invariant of ASTs built by `rpnToAst` with scanner-produced names:
unary nodes carry `NOT`, binary nodes anything else. -/
def WFNode : Node → Prop
  | .var _ name => WFName name
  | .const _ _ => True
  | .unop _ k a => k = OpKey.NOT ∧ WFNode a
  | .binop _ k a b => k ≠ OpKey.NOT ∧ WFNode a ∧ WFNode b

/-- What may legally follow a rendered subterm mid-scan. -/
def SafeRest : List Char → Prop
  | [] => True
  | c :: _ => c = ' ' ∨ c = ')'

/-- The token sequence scanning a canonical rendering yields. -/
def tokensOfNode : Node → List Token
  | .var _ name => [Token.ident name]
  | .const _ v => [Token.const v (if v then "T" else "F")]
  | .unop _ k a =>
    if a.isOpNode then
      Token.op k (opLabel k) :: Token.lparen :: (tokensOfNode a ++ [Token.rparen])
    else
      Token.op k (opLabel k) :: tokensOfNode a
  | .binop _ k a b =>
    Token.lparen ::
      (tokensOfNode a ++ Token.op k (opLabel k) :: (tokensOfNode b ++ [Token.rparen]))

/-- The postfix sequence the shunting-yard produces from those tokens. -/
def postfixOfNode : Node → List Token
  | .var _ name => [Token.ident name]
  | .const _ v => [Token.const v (if v then "T" else "F")]
  | .unop _ k a => postfixOfNode a ++ [Token.op k (opLabel k)]
  | .binop _ k a b =>
    postfixOfNode a ++ (postfixOfNode b ++ [Token.op k (opLabel k)])

/-- Operators still pending on the stack right after a rendered subterm has
been fed to the shunting-yard: only a prefix `!` can be pending. -/
def pendOf : Node → List Token
  | .unop _ k _ => [Token.op k (opLabel k)]
  | _ => []

/-- Output flushed to the postfix string by the time a rendered subterm has
been fed to the shunting-yard. -/
def flushOf : Node → List Token
  | .unop _ _ a => postfixOfNode a
  | n => postfixOfNode n

/-! ## Basic lemmas about the parser step -/

theorem popOps_eq_takeWhile (k : OpKey) (st : List Token) :
    popOps k st = (st.takeWhile (popCond k), st.dropWhile (popCond k)) := by
  induction st with
  | nil => rfl
  | cons t rest ih =>
    cases t with
    | op tk raw =>
      by_cases h : opPrec tk > opPrec k ∨ (opPrec tk = opPrec k ∧ opAssoc k = .left)
      · simp [popOps, popCond, h, ih, List.takeWhile_cons, List.dropWhile_cons]
      · simp [popOps, popCond, h, List.takeWhile_cons, List.dropWhile_cons]
    | lparen => simp [popOps, popCond, List.takeWhile_cons, List.dropWhile_cons]
    | rparen => simp [popOps, popCond, List.takeWhile_cons, List.dropWhile_cons]
    | const v raw => simp [popOps, popCond, List.takeWhile_cons, List.dropWhile_cons]
    | ident v => simp [popOps, popCond, List.takeWhile_cons, List.dropWhile_cons]

theorem contains_iff_mem (l : List String) (a : String) :
    l.contains a = true ↔ a ∈ l := by
  simp [List.contains, List.elem_iff]

theorem lookup_eq_some_mem {α β : Type} [BEq α] [LawfulBEq α]
    {l : List (α × β)} {a : α} {b : β} (h : l.lookup a = some b) : (a, b) ∈ l := by
  induction l with
  | nil => simp [List.lookup] at h
  | cons p rest ih =>
    obtain ⟨k, v⟩ := p
    rw [List.lookup] at h
    split at h
    · cases h
      rename_i heq
      have : a = k := by simpa using heq
      subst this
      exact List.mem_cons_self _ _
    · exact List.mem_cons_of_mem _ (ih h)

theorem goDedup_append (acc xs ys : List String) :
    goDedup acc (xs ++ ys) = goDedup (goDedup acc xs) ys := by
  induction xs generalizing acc with
  | nil => rfl
  | cons x xs ih => simp only [List.cons_append, goDedup]; exact ih _

theorem mem_goDedup (ls : List String) (acc : List String) (l : String) :
    l ∈ goDedup acc ls ↔ l ∈ acc ∨ l ∈ ls := by
  induction ls generalizing acc with
  | nil => simp [goDedup]
  | cons x xs ih =>
    by_cases h : x ∈ acc
    · rw [goDedup, if_pos h, ih]
      simp only [List.mem_cons]
      constructor
      · tauto
      · intro hr
        rcases hr with ha | heq | hx
        · exact .inl ha
        · subst heq; exact .inl h
        · exact .inr hx
    · rw [goDedup, if_neg h, ih]
      simp only [List.mem_append, List.mem_singleton, List.mem_cons]
      tauto

theorem nodup_goDedup (ls acc : List String) (h : acc.Nodup) :
    (goDedup acc ls).Nodup := by
  induction ls generalizing acc with
  | nil => exact h
  | cons x xs ih =>
    by_cases hx : x ∈ acc
    · rw [goDedup, if_pos hx]; exact ih _ h
    · rw [goDedup, if_neg hx]
      refine ih _ ?_
      simp [List.nodup_append, h, hx]

theorem csVisit_unop (i : Nat) (k : OpKey) (a : Node)
    (st : List String × List (Node × String)) :
    csVisit (Node.unop i k a) st
      = if (csVisit a st).1.contains (formatNode (Node.unop i k a)) then csVisit a st
        else (formatNode (Node.unop i k a) :: (csVisit a st).1,
              (csVisit a st).2 ++ [(Node.unop i k a, formatNode (Node.unop i k a))]) := rfl

theorem csVisit_binop (i : Nat) (k : OpKey) (a b : Node)
    (st : List String × List (Node × String)) :
    csVisit (Node.binop i k a b) st
      = if (csVisit b (csVisit a st)).1.contains (formatNode (Node.binop i k a b)) then
          csVisit b (csVisit a st)
        else (formatNode (Node.binop i k a b) :: (csVisit b (csVisit a st)).1,
              (csVisit b (csVisit a st)).2
                ++ [(Node.binop i k a b, formatNode (Node.binop i k a b))]) := rfl

/-- Relation between the source `visit` and the spec's first-occurrence
de-duplication of post-order combinator labels. -/
theorem csVisit_spec (n : Node) :
    ∀ seen order,
      (∀ l, l ∈ seen ↔ l ∈ order.map Prod.snd) →
      (csVisit n (seen, order)).2.map Prod.snd
          = goDedup (order.map Prod.snd) ((postOrderCombs n).map formatNode)
      ∧ (∀ l, l ∈ (csVisit n (seen, order)).1 ↔
            l ∈ (csVisit n (seen, order)).2.map Prod.snd)
      ∧ (∀ p, p ∈ (csVisit n (seen, order)).2 →
            p ∈ order ∨ (p.1.isOpNode = true ∧ p.2 = formatNode p.1)) := by
  induction n with
  | var id name =>
    intro seen order hinv
    exact ⟨rfl, hinv, fun p hp => .inl hp⟩
  | const id v =>
    intro seen order hinv
    exact ⟨rfl, hinv, fun p hp => .inl hp⟩
  | unop id k a iha =>
    intro seen order hinv
    obtain ⟨h1, h2, h3⟩ := iha seen order hinv
    rw [postOrderCombs]
    by_cases hc : formatNode (Node.unop id k a) ∈ (csVisit a (seen, order)).1
    · have hcc : (csVisit a (seen, order)).1.contains
          (formatNode (Node.unop id k a)) = true := (contains_iff_mem _ _).mpr hc
      have hlab : formatNode (Node.unop id k a)
          ∈ (csVisit a (seen, order)).2.map Prod.snd := (h2 _).mp hc
      have heq : csVisit (Node.unop id k a) (seen, order) = csVisit a (seen, order) := by
        rw [csVisit_unop, if_pos hcc]
      rw [heq]
      refine ⟨?_, h2, h3⟩
      rw [List.map_append, goDedup_append, ← h1]
      simp [goDedup, hlab]
    · have hcc : (csVisit a (seen, order)).1.contains
          (formatNode (Node.unop id k a)) = false := by
        rw [← Bool.not_eq_true, contains_iff_mem]; exact hc
      have hlab : formatNode (Node.unop id k a)
          ∉ (csVisit a (seen, order)).2.map Prod.snd :=
        fun hmem => hc ((h2 _).mpr hmem)
      have heq : csVisit (Node.unop id k a) (seen, order)
          = (formatNode (Node.unop id k a) :: (csVisit a (seen, order)).1,
             (csVisit a (seen, order)).2
               ++ [(Node.unop id k a, formatNode (Node.unop id k a))]) := by
        rw [csVisit_unop, if_neg (by rw [hcc]; exact Bool.false_ne_true)]
      rw [heq]
      refine ⟨?_, ?_, ?_⟩
      · rw [List.map_append, List.map_append, goDedup_append, ← h1]
        simp [goDedup, hlab]
      · intro l
        simp only [List.map_append, List.mem_cons, List.mem_append, h2 l]
        simp [List.map_cons]
        tauto
      · intro p hp
        rcases List.mem_append.mp hp with hp | hp
        · exact h3 p hp
        · right
          rcases List.mem_singleton.mp hp with rfl
          exact ⟨rfl, rfl⟩
  | binop id k a b iha ihb =>
    intro seen order hinv
    obtain ⟨ha1, ha2, ha3⟩ := iha seen order hinv
    obtain ⟨hb1, hb2, hb3⟩ :=
      ihb (csVisit a (seen, order)).1 (csVisit a (seen, order)).2 ha2
    rw [postOrderCombs]
    have hbeq : csVisit b ((csVisit a (seen, order)).1, (csVisit a (seen, order)).2)
        = csVisit b (csVisit a (seen, order)) := rfl
    rw [hbeq] at hb1 hb2 hb3
    have hB1 : (csVisit b (csVisit a (seen, order))).2.map Prod.snd
        = goDedup (order.map Prod.snd)
            ((postOrderCombs a).map formatNode ++ (postOrderCombs b).map formatNode) := by
      rw [goDedup_append, ← ha1, hb1]
    by_cases hc : formatNode (Node.binop id k a b)
        ∈ (csVisit b (csVisit a (seen, order))).1
    · have hcc : (csVisit b (csVisit a (seen, order))).1.contains
          (formatNode (Node.binop id k a b)) = true := (contains_iff_mem _ _).mpr hc
      have hlab : formatNode (Node.binop id k a b)
          ∈ (csVisit b (csVisit a (seen, order))).2.map Prod.snd := (hb2 _).mp hc
      have heq : csVisit (Node.binop id k a b) (seen, order)
          = csVisit b (csVisit a (seen, order)) := by
        rw [csVisit_binop, if_pos hcc]
      rw [heq]
      refine ⟨?_, hb2, ?_⟩
      · rw [List.map_append, List.map_append, goDedup_append, ← hB1]
        simp [goDedup, hlab]
      · intro p hp
        rcases hb3 p hp with hp' | hp'
        · exact ha3 p hp'
        · exact .inr hp'
    · have hcc : (csVisit b (csVisit a (seen, order))).1.contains
          (formatNode (Node.binop id k a b)) = false := by
        rw [← Bool.not_eq_true, contains_iff_mem]; exact hc
      have hlab : formatNode (Node.binop id k a b)
          ∉ (csVisit b (csVisit a (seen, order))).2.map Prod.snd :=
        fun hmem => hc ((hb2 _).mpr hmem)
      have heq : csVisit (Node.binop id k a b) (seen, order)
          = (formatNode (Node.binop id k a b)
               :: (csVisit b (csVisit a (seen, order))).1,
             (csVisit b (csVisit a (seen, order))).2
               ++ [(Node.binop id k a b, formatNode (Node.binop id k a b))]) := by
        rw [csVisit_binop, if_neg (by rw [hcc]; exact Bool.false_ne_true)]
      rw [heq]
      refine ⟨?_, ?_, ?_⟩
      · rw [List.map_append, List.map_append, List.map_append, goDedup_append, ← hB1]
        simp [goDedup, hlab]
      · intro l
        simp only [List.map_append, List.mem_cons, List.mem_append, hb2 l]
        simp [List.map_cons]
        tauto
      · intro p hp
        rcases List.mem_append.mp hp with hp | hp
        · rcases hb3 p hp with hp' | hp'
          · exact ha3 p hp'
          · exact .inr hp'
        · right
          rcases List.mem_singleton.mp hp with rfl
          exact ⟨rfl, rfl⟩

/-! ## C4, C5, C6, C7 -/

/-- C7: `collectSubexpressions` performs a post-order traversal of the
combinator nodes, keeps each rendered label only at its first occurrence
(keyed by the rendered string), every returned pair is a combinator with its
rendered label, and the returned labels are duplicate-free; concretely, for
the input `(a & b) | (a & b)` the label `"(a & b)"` appears exactly once. -/
theorem claim_subexpression_dedup :
    (∀ root : Node,
        (collectSubexpressions root).map Prod.snd
          = firstDedup ((postOrderCombs root).map formatNode))
    ∧ (∀ (root : Node) (p : Node × String), p ∈ collectSubexpressions root →
        p.1.isOpNode = true ∧ p.2 = formatNode p.1)
    ∧ (∀ root : Node, ((collectSubexpressions root).map Prod.snd).Nodup)
    ∧ tokenize "(a & b) | (a & b)"
        = .ok [Token.lparen, Token.ident "a", Token.op .AND "&", Token.ident "b",
               Token.rparen, Token.op .OR "|", Token.lparen, Token.ident "a",
               Token.op .AND "&", Token.ident "b", Token.rparen]
    ∧ toRPN [Token.lparen, Token.ident "a", Token.op .AND "&", Token.ident "b",
             Token.rparen, Token.op .OR "|", Token.lparen, Token.ident "a",
             Token.op .AND "&", Token.ident "b", Token.rparen]
        = .ok [Token.ident "a", Token.ident "b", Token.op .AND "&",
               Token.ident "a", Token.ident "b", Token.op .AND "&",
               Token.op .OR "|"]
    ∧ rpnToAst [Token.ident "a", Token.ident "b", Token.op .AND "&",
                Token.ident "a", Token.ident "b", Token.op .AND "&",
                Token.op .OR "|"]
        = .ok (Node.binop 7 .OR
            (Node.binop 3 .AND (Node.var 1 "a") (Node.var 2 "b"))
            (Node.binop 6 .AND (Node.var 4 "a") (Node.var 5 "b")))
    ∧ (collectSubexpressions (Node.binop 7 .OR
            (Node.binop 3 .AND (Node.var 1 "a") (Node.var 2 "b"))
            (Node.binop 6 .AND (Node.var 4 "a") (Node.var 5 "b")))).map Prod.snd
        = ["(a & b)", "((a & b) | (a & b))"]
    ∧ ((collectSubexpressions (Node.binop 7 .OR
            (Node.binop 3 .AND (Node.var 1 "a") (Node.var 2 "b"))
            (Node.binop 6 .AND (Node.var 4 "a") (Node.var 5 "b")))).map
          Prod.snd).count "(a & b)" = 1 := by
  refine ⟨?_, ?_, ?_, rfl, rfl, rfl, rfl, rfl⟩
  · intro root
    exact (csVisit_spec root [] [] (by simp)).1
  · intro root p hp
    rcases (csVisit_spec root [] [] (by simp)).2.2 p hp with h | h
    · simp at h
    · exact h
  · intro root
    have h := (csVisit_spec root [] [] (by simp)).1
    rw [collectSubexpressions, h]
    exact nodup_goDedup _ _ (by simp)

theorem claim_subexpression_dedup_witness :
    ((Node.binop 3 .AND (Node.var 1 "a") (Node.var 2 "b"), "(a & b)")
        ∈ collectSubexpressions (Node.binop 3 .AND (Node.var 1 "a") (Node.var 2 "b")))
    ∧ ((Node.binop 3 .AND (Node.var 1 "a") (Node.var 2 "b")).isOpNode = true
       ∧ "(a & b)" = formatNode (Node.binop 3 .AND (Node.var 1 "a") (Node.var 2 "b"))) :=
  ⟨by decide,
   claim_subexpression_dedup.2.1
     (Node.binop 3 .AND (Node.var 1 "a") (Node.var 2 "b"))
     (Node.binop 3 .AND (Node.var 1 "a") (Node.var 2 "b"), "(a & b)")
     (by decide)⟩

/-- C4: longest-match and whole-word lexing.  The `<=>` half holds: the text
`<=>` lexes as a single `IFF` token.  The whole-word half fails on the code:
`matchOperatorAt` runs before the identifier scan, so the exact-lowercase word
`implies` is matched even as the head of a longer identifier run, and
`"impliesX"` lexes as an `IMP` operator followed by the identifier `X` instead
of one identifier.  This theorem evaluates the code on both inputs. -/
theorem claim_word_operator_lexing :
    tokenize "<=>" = .ok [Token.op .IFF "<=>"]
    ∧ tokenize "impliesX" = .ok [Token.op .IMP "implies", Token.ident "X"] :=
  ⟨rfl, rfl⟩

/-- C5: the shunting-yard operator case pops exactly the maximal initial run
of stack operators satisfying the precedence/associativity condition, then
pushes the incoming operator; the registry carries the fixed
precedence/associativity table. -/
theorem claim_shunting_pop_rule :
    (∀ (k : OpKey) (raw : String) (rest out st : List Token),
        toRPNGo (Token.op k raw :: rest) out st =
          toRPNGo rest (out ++ st.takeWhile (popCond k))
            (Token.op k raw :: st.dropWhile (popCond k)))
    ∧ (∀ (k : OpKey) (t : Token),
        popCond k t = true ↔
          ∃ tk raw, t = Token.op tk raw ∧
            (opPrec tk > opPrec k ∨ (opPrec tk = opPrec k ∧ opAssoc k = .left)))
    ∧ opPrec .NOT = 5 ∧ opAssoc .NOT = .right
    ∧ opPrec .AND = 4 ∧ opAssoc .AND = .left
    ∧ opPrec .XOR = 3 ∧ opAssoc .XOR = .left
    ∧ opPrec .OR = 2 ∧ opAssoc .OR = .left
    ∧ opPrec .IMP = 1 ∧ opAssoc .IMP = .right
    ∧ opPrec .IFF = 0 ∧ opAssoc .IFF = .left := by
  refine ⟨?_, ?_, rfl, rfl, rfl, rfl, rfl, rfl, rfl, rfl, rfl, rfl, rfl, rfl⟩
  · intro k raw rest out st
    simp [toRPNGo, popOps_eq_takeWhile]
  · intro k t
    cases t with
    | op tk raw => simp [popCond]
    | lparen => simp [popCond]
    | rparen => simp [popCond]
    | const v raw => simp [popCond]
    | ident v => simp [popCond]

/-- C6: the trailing-operator input `"a & "` tokenizes and converts to
postfix without error, but building the AST from the resulting postfix
sequence raises a missing-operand error, and direct postfix evaluation raises
under every assignment. -/
theorem claim_trailing_operator_rejection :
    tokenize "a & " = .ok [Token.ident "a", Token.op .AND "&"]
    ∧ toRPN [Token.ident "a", Token.op .AND "&"] =
        .ok [Token.ident "a", Token.op .AND "&"]
    ∧ rpnToAst [Token.ident "a", Token.op .AND "&"] =
        .error "Invalid expression: missing operands for binary operator"
    ∧ ∀ env : Env, ∃ msg,
        evalRPN [Token.ident "a", Token.op .AND "&"] env = .error msg := by
  refine ⟨rfl, rfl, rfl, ?_⟩
  intro env
  cases h : env "a" with
  | none => exact ⟨"Unbound variable 'a'", by simp [evalRPN, evalRPNGo, h]⟩
  | some v =>
    exact ⟨"Invalid expression: missing operands for binary operator",
      by simp [evalRPN, evalRPNGo, h, opArity]⟩

/-! ## Bit arithmetic for the enumerator -/

theorem shiftRight_lt_pow (n k i : Nat) (hk : k ≤ n) (hi : i < 2 ^ n) :
    i >>> k < 2 ^ (n - k) := by
  rw [Nat.shiftRight_eq_div_pow]
  have hsplit : 2 ^ n = 2 ^ (n - k) * 2 ^ k := by
    rw [← pow_add]; congr 1; omega
  rw [Nat.div_lt_iff_lt_mul (pow_pos (by norm_num) k)]
  omega

theorem bits_inj (n : Nat) : ∀ i i', i < 2 ^ n → i' < 2 ^ n →
    (∀ k, k < n → (i >>> k) % 2 = (i' >>> k) % 2) → i = i' := by
  induction n with
  | zero =>
    intro i i' hi hi' _
    simp only [pow_zero] at hi hi'
    omega
  | succ n ih =>
    intro i i' hi hi' h
    have h0 := h 0 (Nat.succ_pos n)
    simp only [Nat.shiftRight_zero] at h0
    have hstep : ∀ m k : Nat, m >>> (k + 1) = (m / 2) >>> k := by
      intro m k
      rw [Nat.add_comm, Nat.shiftRight_add, Nat.shiftRight_one]
    have hrec : i / 2 = i' / 2 := by
      apply ih
      · have : 2 ^ (n + 1) = 2 ^ n * 2 := by rw [pow_succ]
        omega
      · have : 2 ^ (n + 1) = 2 ^ n * 2 := by rw [pow_succ]
        omega
      · intro k hk
        have hk1 := h (k + 1) (by omega)
        rw [hstep i k, hstep i' k] at hk1
        exact hk1
    omega

theorem comp_shiftRight (n : Nat) : ∀ (k i : Nat), k ≤ n → i < 2 ^ n →
    (2 ^ n - 1 - i) >>> k = 2 ^ (n - k) - 1 - (i >>> k) := by
  intro k
  induction k with
  | zero => intro i _ _; simp
  | succ k ih =>
    intro i hk hi
    have hk' : k ≤ n := by omega
    rw [Nat.shiftRight_succ, ih i hk' hi, Nat.shiftRight_succ]
    have hx : i >>> k < 2 ^ (n - k) := shiftRight_lt_pow n k i hk' hi
    have hsplit : 2 ^ (n - k) = 2 * 2 ^ (n - (k + 1)) := by
      rw [← pow_succ']; congr 1; omega
    generalize hp : 2 ^ (n - (k + 1)) = p at hsplit
    generalize hxv : i >>> k = x at hx
    rw [hsplit] at hx ⊢
    omega

theorem comp_bit (n k i : Nat) (hk : k < n) (hi : i < 2 ^ n) :
    ((2 ^ n - 1 - i) >>> k) &&& 1 = 1 - ((i >>> k) &&& 1) := by
  rw [Nat.and_one_is_mod, Nat.and_one_is_mod,
    comp_shiftRight n k i (le_of_lt hk) hi]
  have hx : i >>> k < 2 ^ (n - k) := shiftRight_lt_pow n k i (le_of_lt hk) hi
  have hsplit : 2 ^ (n - k) = 2 * 2 ^ (n - k - 1) := by
    rw [← pow_succ']; congr 1; omega
  generalize hp : 2 ^ (n - k - 1) = p at hsplit
  generalize hxv : i >>> k = x at hx
  rw [hsplit] at hx ⊢
  omega

/-! ## Row-environment lemmas -/

theorem mkRowEnvGo_not_mem (n : Nat) (ro : RowOrder) (i : Nat) :
    ∀ (vs : List String) (j : Nat) (e : Env) (name : String), name ∉ vs →
      mkRowEnvGo n ro i vs j e name = e name := by
  intro vs
  induction vs with
  | nil => intro j e name _; rfl
  | cons v vs ih =>
    intro j e name hnm
    rw [mkRowEnvGo]
    rw [ih _ _ _ (fun h => hnm (List.mem_cons_of_mem _ h))]
    have hne : name ≠ v := fun h => hnm (by rw [h]; exact List.mem_cons_self _ _)
    simp [envSet, hne]

theorem mkRowEnvGo_get (n : Nat) (ro : RowOrder) (i : Nat) :
    ∀ (vs : List String) (j0 : Nat) (e : Env) (j : Nat) (hj : j < vs.length),
      vs.Nodup →
      mkRowEnvGo n ro i vs j0 e (vs.get ⟨j, hj⟩)
        = some (rowBitVal n ro i (j0 + j)) := by
  intro vs
  induction vs with
  | nil => intro j0 e j hj; exact absurd hj (by simp)
  | cons v vs ih =>
    intro j0 e j hj hnd
    rw [mkRowEnvGo]
    cases j with
    | zero =>
      have hv : v ∉ vs := (List.nodup_cons.mp hnd).1
      rw [show ((v :: vs).get ⟨0, hj⟩) = v from rfl]
      rw [mkRowEnvGo_not_mem n ro i vs (j0 + 1) _ v hv]
      simp [envSet]
    | succ j' =>
      have hj' : j' < vs.length := by simpa using hj
      rw [show ((v :: vs).get ⟨j' + 1, hj⟩) = vs.get ⟨j', hj'⟩ from rfl]
      have harith : j0 + 1 + j' = j0 + (j' + 1) := by omega
      rw [ih (j0 + 1) _ j' hj' (List.nodup_cons.mp hnd).2, harith]

theorem mkRowEnv_get (vars : List String) (ro : RowOrder) (i j : Nat)
    (hj : j < vars.length) (hnd : vars.Nodup) :
    mkRowEnv vars ro i (vars.get ⟨j, hj⟩) = some (rowBitVal vars.length ro i j) := by
  have := mkRowEnvGo_get vars.length ro i vars 0 (fun _ => none) j hj hnd
  simpa using this

theorem enumerateRows_length (vars : List String) (rpn : List Token) (ro : RowOrder) :
    (enumerateRows vars rpn ro).length = 2 ^ vars.length := by
  simp [enumerateRows, Nat.one_shiftLeft]

theorem enumerateRows_getD (vars : List String) (rpn : List Token) (ro : RowOrder)
    (i : Nat) (hi : i < 2 ^ vars.length) :
    (enumerateRows vars rpn ro).getD i dfltRow
      = (mkRowEnv vars ro i, rowResult rpn (mkRowEnv vars ro i)) := by
  rw [List.getD_eq_getElem?_getD, enumerateRows, List.getElem?_map,
    List.getElem?_range (by rwa [Nat.one_shiftLeft])]
  rfl

theorem rowBitVal_eq_bits (n : Nat) (ro : RowOrder) (i i' j : Nat)
    (h : rowBitVal n ro i j = rowBitVal n ro i' j) :
    (i >>> (n - j - 1)) % 2 = (i' >>> (n - j - 1)) % 2 := by
  have hx : (i >>> (n - j - 1)) % 2 < 2 := Nat.mod_lt _ (by norm_num)
  have hy : (i' >>> (n - j - 1)) % 2 < 2 := Nat.mod_lt _ (by norm_num)
  cases ro <;>
  · simp only [rowBitVal, Nat.and_one_is_mod] at h
    generalize hxv : (i >>> (n - j - 1)) % 2 = x at h hx
    generalize hyv : (i' >>> (n - j - 1)) % 2 = y at h hy
    interval_cases x <;> interval_cases y <;> simp_all

/-! ## C2, C3, C10 -/

/-- C2: for a duplicate-free (sorted) variable list of size `n`, the
enumerator produces exactly `2 ^ n` rows; in row `i` the variable at position
`j` is assigned the bit `(i >>> (n - j - 1)) &&& 1`, read as `true` iff the
bit is `1` under `F_FIRST` and `true` iff it is `0` under `T_FIRST`; and
distinct row indices carry distinct assignment tuples. -/
theorem claim_enumeration_shape (vars : List String) (rpn : List Token)
    (ro : RowOrder) (hnd : vars.Nodup) :
    (enumerateRows vars rpn ro).length = 2 ^ vars.length
    ∧ (∀ i, i < 2 ^ vars.length → ∀ j (hj : j < vars.length),
        ((enumerateRows vars rpn ro).getD i dfltRow).1 (vars.get ⟨j, hj⟩)
          = some (match ro with
              | RowOrder.F_FIRST => ((i >>> (vars.length - j - 1)) &&& 1) == 1
              | RowOrder.T_FIRST => ((i >>> (vars.length - j - 1)) &&& 1) == 0))
    ∧ (∀ i i', i < 2 ^ vars.length → i' < 2 ^ vars.length → i ≠ i' →
        vars.map ((enumerateRows vars rpn ro).getD i dfltRow).1
          ≠ vars.map ((enumerateRows vars rpn ro).getD i' dfltRow).1) := by
  refine ⟨enumerateRows_length vars rpn ro, ?_, ?_⟩
  · intro i hi j hj
    rw [enumerateRows_getD vars rpn ro i hi]
    show mkRowEnv vars ro i (vars.get ⟨j, hj⟩) = _
    rw [mkRowEnv_get vars ro i j hj hnd]
    cases ro <;> rfl
  · intro i i' hi hi' hne heq
    apply hne
    apply bits_inj vars.length i i' hi hi'
    intro k hk
    have hj : vars.length - k - 1 < vars.length := by omega
    have hjk : vars.length - (vars.length - k - 1) - 1 = k := by omega
    have hmap : (vars.map ((enumerateRows vars rpn ro).getD i dfltRow).1)[vars.length
          - k - 1]?
        = (vars.map ((enumerateRows vars rpn ro).getD i' dfltRow).1)[vars.length
          - k - 1]? := by
      rw [heq]
    simp only [List.getElem?_map] at hmap
    rw [List.getElem?_eq_getElem hj] at hmap
    simp only [Option.map_some'] at hmap
    rw [enumerateRows_getD vars rpn ro i hi,
      enumerateRows_getD vars rpn ro i' hi'] at hmap
    rw [show vars[vars.length - k - 1] = vars.get ⟨vars.length - k - 1, hj⟩ from rfl]
      at hmap
    have hmap2 : some (mkRowEnv vars ro i (vars.get ⟨vars.length - k - 1, hj⟩))
        = some (mkRowEnv vars ro i' (vars.get ⟨vars.length - k - 1, hj⟩)) := hmap
    rw [mkRowEnv_get vars ro i _ hj hnd, mkRowEnv_get vars ro i' _ hj hnd] at hmap2
    have := rowBitVal_eq_bits vars.length ro i i' (vars.length - k - 1)
      (by simpa using hmap2)
    rwa [hjk] at this

theorem claim_enumeration_shape_witness :
    (["a", "b"] : List String).Nodup
    ∧ (enumerateRows ["a", "b"] [Token.ident "a"] .F_FIRST).length
        = 2 ^ (["a", "b"] : List String).length
    ∧ ((enumerateRows ["a", "b"] [Token.ident "a"] .F_FIRST).getD 2 dfltRow).1
        ((["a", "b"] : List String).get ⟨0, by norm_num⟩)
        = some (((2 >>> ((["a", "b"] : List String).length - 0 - 1)) &&& 1) == 1) :=
  ⟨by decide,
   (claim_enumeration_shape ["a", "b"] [Token.ident "a"] .F_FIRST (by decide)).1,
   (claim_enumeration_shape ["a", "b"] [Token.ident "a"] .F_FIRST (by decide)).2.1
     2 (by norm_num) 0 (by norm_num)⟩

/-- C3: a direct-evaluation failure in one row is absorbed: that row's result
is the sentinel `false`, the table still has all `2 ^ n` rows, and every row
whose evaluation succeeds keeps its evaluated result. -/
theorem claim_row_failure_absorption (vars : List String) (rpn : List Token)
    (ro : RowOrder) (i : Nat) (msg : String)
    (hi : i < 2 ^ vars.length)
    (herr : evalRPN rpn (mkRowEnv vars ro i) = .error msg) :
    (enumerateRows vars rpn ro).length = 2 ^ vars.length
    ∧ (enumerateRows vars rpn ro).getD i dfltRow = (mkRowEnv vars ro i, false)
    ∧ ∀ i' v, i' < 2 ^ vars.length →
        evalRPN rpn (mkRowEnv vars ro i') = .ok v →
        (enumerateRows vars rpn ro).getD i' dfltRow = (mkRowEnv vars ro i', v) := by
  refine ⟨enumerateRows_length vars rpn ro, ?_, ?_⟩
  · rw [enumerateRows_getD vars rpn ro i hi]
    rw [show rowResult rpn (mkRowEnv vars ro i) = false by
      rw [rowResult, herr]]
  · intro i' v hi' hok
    rw [enumerateRows_getD vars rpn ro i' hi']
    rw [show rowResult rpn (mkRowEnv vars ro i') = v by
      rw [rowResult, hok]]

theorem claim_row_failure_absorption_witness :
    0 < 2 ^ (["a"] : List String).length
    ∧ evalRPN [Token.op .AND "&"] (mkRowEnv ["a"] .F_FIRST 0)
        = .error "Invalid expression: missing operands for binary operator"
    ∧ ((enumerateRows ["a"] [Token.op .AND "&"] .F_FIRST).length
          = 2 ^ (["a"] : List String).length
       ∧ (enumerateRows ["a"] [Token.op .AND "&"] .F_FIRST).getD 0 dfltRow
           = (mkRowEnv ["a"] .F_FIRST 0, false)
       ∧ ∀ i' v, i' < 2 ^ (["a"] : List String).length →
           evalRPN [Token.op .AND "&"] (mkRowEnv ["a"] .F_FIRST i') = .ok v →
           (enumerateRows ["a"] [Token.op .AND "&"] .F_FIRST).getD i' dfltRow
             = (mkRowEnv ["a"] .F_FIRST i', v)) :=
  ⟨by norm_num, rfl,
   claim_row_failure_absorption ["a"] [Token.op .AND "&"] .F_FIRST 0 _
     (by norm_num) rfl⟩

/-- C10: at every row index the `T_FIRST` assignment is the pointwise
complement of the `F_FIRST` assignment, and for `i < 2 ^ n` it coincides with
the `F_FIRST` assignment of row `2 ^ n - 1 - i`. -/
theorem claim_row_order_complement (vars : List String) (i : Nat) :
    (∀ name, mkRowEnv vars .T_FIRST i name
        = (mkRowEnv vars .F_FIRST i name).map not)
    ∧ (i < 2 ^ vars.length →
        ∀ name, mkRowEnv vars .T_FIRST i name
          = mkRowEnv vars .F_FIRST (2 ^ vars.length - 1 - i) name) := by
  constructor
  · have hgen : ∀ (vs : List String) (j : Nat) (e e' : Env),
        (∀ name, e' name = (e name).map not) →
        ∀ name, mkRowEnvGo vars.length .T_FIRST i vs j e' name
          = (mkRowEnvGo vars.length .F_FIRST i vs j e name).map not := by
      intro vs
      induction vs with
      | nil => intro j e e' h name; exact h name
      | cons v vs ih =>
        intro j e e' h name
        rw [mkRowEnvGo, mkRowEnvGo]
        apply ih
        intro nm
        by_cases hnm : nm = v
        · subst hnm
          simp only [envSet, if_pos rfl, Option.map_some']
          simp only [rowBitVal, Nat.and_one_is_mod]
          have : (i >>> (vars.length - j - 1)) % 2 < 2 := Nat.mod_lt _ (by norm_num)
          generalize (i >>> (vars.length - j - 1)) % 2 = x at this
          interval_cases x <;> rfl
        · simp only [envSet, if_neg hnm]
          exact h nm
    exact hgen vars 0 (fun _ => none) (fun _ => none) (fun _ => rfl)
  · intro hi
    have hgen : ∀ (vs : List String) (j : Nat) (e : Env),
        j + vs.length ≤ vars.length →
        ∀ name, mkRowEnvGo vars.length .T_FIRST i vs j e name
          = mkRowEnvGo vars.length .F_FIRST (2 ^ vars.length - 1 - i) vs j e name := by
      intro vs
      induction vs with
      | nil => intro j e _ name; rfl
      | cons v vs ih =>
        intro j e hle name
        rw [mkRowEnvGo, mkRowEnvGo]
        rw [show envSet e v (rowBitVal vars.length .T_FIRST i j)
            = envSet e v (rowBitVal vars.length .F_FIRST (2 ^ vars.length - 1 - i) j) by
          rw [show rowBitVal vars.length .T_FIRST i j
              = rowBitVal vars.length .F_FIRST (2 ^ vars.length - 1 - i) j from ?_]
          simp only [rowBitVal]
          have hk : vars.length - j - 1 < vars.length := by
            simp only [List.length_cons] at hle
            omega
          rw [comp_bit vars.length (vars.length - j - 1) i hk hi]
          rw [Nat.and_one_is_mod]
          have : (i >>> (vars.length - j - 1)) % 2 < 2 := Nat.mod_lt _ (by norm_num)
          generalize (i >>> (vars.length - j - 1)) % 2 = x at this
          interval_cases x <;> rfl]
        apply ih
        simp only [List.length_cons] at hle
        omega
    exact hgen vars 0 (fun _ => none) (by simp)

theorem claim_row_order_complement_witness :
    1 < 2 ^ (["a"] : List String).length
    ∧ (∀ name, mkRowEnv ["a"] .T_FIRST 1 name
        = (mkRowEnv ["a"] .F_FIRST 1 name).map not)
    ∧ (∀ name, mkRowEnv ["a"] .T_FIRST 1 name
        = mkRowEnv ["a"] .F_FIRST (2 ^ (["a"] : List String).length - 1 - 1) name) :=
  ⟨by norm_num, (claim_row_order_complement ["a"] 1).1,
   (claim_row_order_complement ["a"] 1).2 (by norm_num)⟩

/-! ## Variable collection: ordering lemmas -/

theorem charListLt_irrefl : ∀ l, charListLt l l = false := by
  intro l
  induction l with
  | nil => rfl
  | cons a as ih => simp [charListLt, lt_irrefl, ih]

theorem charListLt_asymm : ∀ l1 l2, charListLt l1 l2 = true →
    charListLt l2 l1 = false := by
  intro l1
  induction l1 with
  | nil =>
    intro l2 h
    cases l2 with
    | nil => simp [charListLt] at h
    | cons c cs => rfl
  | cons a as ih =>
    intro l2 h
    cases l2 with
    | nil => simp [charListLt] at h
    | cons b bs =>
      rw [charListLt] at h ⊢
      rcases lt_trichotomy a b with hab | hab | hab
      · rw [if_neg (lt_asymm hab), if_pos hab]
      · subst hab
        rw [if_neg (lt_irrefl a), if_neg (lt_irrefl a)] at h ⊢
        exact ih bs h
      · rw [if_neg (lt_asymm hab), if_pos hab] at h
        exact absurd h (by simp)

theorem charListLt_conn : ∀ l1 l2, charListLt l1 l2 = false →
    charListLt l2 l1 = false → l1 = l2 := by
  intro l1
  induction l1 with
  | nil =>
    intro l2 h1 _
    cases l2 with
    | nil => rfl
    | cons c cs => simp [charListLt] at h1
  | cons a as ih =>
    intro l2 h1 h2
    cases l2 with
    | nil => simp [charListLt] at h2
    | cons b bs =>
      rw [charListLt] at h1 h2
      rcases lt_trichotomy a b with hab | hab | hab
      · rw [if_pos hab] at h1
        exact absurd h1 (by simp)
      · subst hab
        rw [if_neg (lt_irrefl a), if_neg (lt_irrefl a)] at h1 h2
        rw [ih bs h1 h2]
      · rw [if_pos hab] at h2
        exact absurd h2 (by simp)

theorem charListLt_trans : ∀ l1 l2 l3, charListLt l1 l2 = true →
    charListLt l2 l3 = true → charListLt l1 l3 = true := by
  intro l1
  induction l1 with
  | nil =>
    intro l2 l3 h1 h2
    cases l2 with
    | nil => simp [charListLt] at h1
    | cons b bs =>
      cases l3 with
      | nil => simp [charListLt] at h2
      | cons c cs => rfl
  | cons a as ih =>
    intro l2 l3 h1 h2
    cases l2 with
    | nil => simp [charListLt] at h1
    | cons b bs =>
      cases l3 with
      | nil => simp [charListLt] at h2
      | cons c cs =>
        rw [charListLt] at h1 h2 ⊢
        rcases lt_trichotomy a b with hab | hab | hab
        · rcases lt_trichotomy b c with hbc | hbc | hbc
          · rw [if_pos (lt_trans hab hbc)]
          · subst hbc
            rw [if_pos hab]
          · rw [if_neg (lt_asymm hbc), if_pos hbc] at h2
            exact absurd h2 (by simp)
        · subst hab
          rcases lt_trichotomy a c with hac | hac | hac
          · rw [if_pos hac]
          · subst hac
            rw [if_neg (lt_irrefl a), if_neg (lt_irrefl a)] at h1 h2 ⊢
            exact ih bs cs h1 h2
          · rw [if_neg (lt_asymm hac), if_pos hac] at h2
            exact absurd h2 (by simp)
        · rw [if_neg (lt_asymm hab), if_pos hab] at h1
          exact absurd h1 (by simp)

theorem bool_eq_false {b : Bool} (h : ¬(b = true)) : b = false := by
  cases b
  · rfl
  · exact absurd rfl h

theorem lcLeB_trans {a b c : String} (h1 : lcLeB a b = true)
    (h2 : lcLeB b c = true) : lcLeB a c = true := by
  unfold lcLeB at h1 h2 ⊢
  by_cases hab : charListLt (toLowerStr a).data (toLowerStr b).data = true
  · by_cases hbc : charListLt (toLowerStr b).data (toLowerStr c).data = true
    · rw [if_pos (charListLt_trans _ _ _ hab hbc)]
    · rw [if_neg hbc] at h2
      by_cases hcb : charListLt (toLowerStr c).data (toLowerStr b).data = true
      · rw [if_pos hcb] at h2
        exact absurd h2 (by simp)
      · have heq : (toLowerStr b).data = (toLowerStr c).data :=
          charListLt_conn _ _ (bool_eq_false hbc) (bool_eq_false hcb)
        rw [if_pos (show charListLt (toLowerStr a).data (toLowerStr c).data = true by
          rw [← heq]; exact hab)]
  · by_cases hba : charListLt (toLowerStr b).data (toLowerStr a).data = true
    · rw [if_neg hab, if_pos hba] at h1
      exact absurd h1 (by simp)
    · have heqab : (toLowerStr a).data = (toLowerStr b).data :=
        charListLt_conn _ _ (bool_eq_false hab) (bool_eq_false hba)
      rw [if_neg hab, if_neg hba] at h1
      by_cases hbc : charListLt (toLowerStr b).data (toLowerStr c).data = true
      · rw [if_pos (show charListLt (toLowerStr a).data (toLowerStr c).data = true by
          rw [heqab]; exact hbc)]
      · by_cases hcb : charListLt (toLowerStr c).data (toLowerStr b).data = true
        · rw [if_neg hbc, if_pos hcb] at h2
          exact absurd h2 (by simp)
        · have heqbc : (toLowerStr b).data = (toLowerStr c).data :=
            charListLt_conn _ _ (bool_eq_false hbc) (bool_eq_false hcb)
          rw [if_neg hbc, if_neg hcb] at h2
          have hac : ¬ charListLt (toLowerStr a).data (toLowerStr c).data = true :=
            fun h => hab (by rw [heqbc]; exact h)
          have hca : ¬ charListLt (toLowerStr c).data (toLowerStr a).data = true :=
            fun h => hba (by rw [heqbc]; exact h)
          rw [if_neg hac, if_neg hca]
          rw [Bool.not_eq_true'] at h1 h2 ⊢
          by_cases hca2 : charListLt c.data a.data = true
          · by_cases hab2 : charListLt a.data b.data = true
            · have := charListLt_trans _ _ _ hca2 hab2
              rw [this] at h2
              exact absurd h2 (by simp)
            · have heq2 : a.data = b.data :=
                charListLt_conn _ _ (bool_eq_false hab2) h1
              rw [← heq2] at h2
              exact absurd hca2 (by simp [h2])
          · exact bool_eq_false hca2

theorem lcLeB_total (a b : String) : lcLeB a b = true ∨ lcLeB b a = true := by
  unfold lcLeB
  by_cases hab : charListLt (toLowerStr a).data (toLowerStr b).data = true
  · left
    rw [if_pos hab]
  · by_cases hba : charListLt (toLowerStr b).data (toLowerStr a).data = true
    · right
      rw [if_pos hba]
    · rw [if_neg hab, if_neg hba, if_neg hba, if_neg hab]
      by_cases h : charListLt b.data a.data = true
      · right
        rw [Bool.not_eq_true']
        exact charListLt_asymm _ _ h
      · left
        rw [Bool.not_eq_true']
        exact bool_eq_false h

theorem sortInsert_perm (x : String) (l : List String) :
    (sortInsert x l).Perm (x :: l) := by
  induction l with
  | nil => exact List.Perm.refl _
  | cons y ys ih =>
    rw [sortInsert]
    by_cases h : lcLeB x y = true
    · rw [if_pos h]
    · rw [if_neg h]
      exact (List.Perm.cons y ih).trans (List.Perm.swap x y ys)

theorem sortInsert_pairwise (x : String) (l : List String)
    (h : l.Pairwise (fun a b => lcLeB a b = true)) :
    (sortInsert x l).Pairwise (fun a b => lcLeB a b = true) := by
  induction l with
  | nil => simp [sortInsert]
  | cons y ys ih =>
    rw [sortInsert]
    rcases List.pairwise_cons.mp h with ⟨hy, hys⟩
    by_cases hxy : lcLeB x y = true
    · rw [if_pos hxy]
      refine List.pairwise_cons.mpr ⟨?_, h⟩
      intro z hz
      rcases List.mem_cons.mp hz with rfl | hz
      · exact hxy
      · exact lcLeB_trans hxy (hy z hz)
    · rw [if_neg hxy]
      refine List.pairwise_cons.mpr ⟨?_, ih hys⟩
      intro z hz
      have hz' := (sortInsert_perm x ys).mem_iff.mp hz
      rcases List.mem_cons.mp hz' with heq | hz'
      · rw [heq]
        rcases lcLeB_total x y with h' | h'
        · exact absurd h' hxy
        · exact h'
      · exact hy z hz'

theorem sortVars_perm (l : List String) : (sortVars l).Perm l := by
  induction l with
  | nil => exact List.Perm.refl _
  | cons x xs ih =>
    exact (sortInsert_perm x (sortVars xs)).trans (List.Perm.cons x ih)

theorem sortVars_pairwise (l : List String) :
    (sortVars l).Pairwise (fun a b => lcLeB a b = true) := by
  induction l with
  | nil => simp [sortVars]
  | cons x xs ih => exact sortInsert_pairwise x (sortVars xs) ih

theorem addIdent_fold_spec (tokens : List Token) :
    ∀ acc : List String, acc.Nodup →
      (tokens.foldl addIdent acc).Nodup
      ∧ ∀ s, s ∈ tokens.foldl addIdent acc ↔ s ∈ acc ∨ Token.ident s ∈ tokens := by
  induction tokens with
  | nil =>
    intro acc hacc
    exact ⟨hacc, fun s => by simp⟩
  | cons t ts ih =>
    intro acc hacc
    have hstep : (addIdent acc t).Nodup ∧
        ∀ s, s ∈ addIdent acc t ↔ s ∈ acc ∨ t = Token.ident s := by
      cases t with
      | ident v =>
        by_cases hv : v ∈ acc
        · rw [show addIdent acc (Token.ident v) = acc by
            simp only [addIdent]
            rw [if_pos ((contains_iff_mem _ _).mpr hv)]]
          refine ⟨hacc, fun s => ?_⟩
          constructor
          · exact fun h => .inl h
          · rintro (h | h)
            · exact h
            · injection h with h; exact h ▸ hv
        · rw [show addIdent acc (Token.ident v) = acc ++ [v] by
            simp only [addIdent]
            rw [if_neg (by rw [contains_iff_mem]; exact hv)]]
          refine ⟨by simp [List.nodup_append, hacc, hv], fun s => ?_⟩
          simp only [List.mem_append, List.mem_singleton, Token.ident.injEq]
          tauto
      | lparen => exact ⟨hacc, fun s => by simp [addIdent]⟩
      | rparen => exact ⟨hacc, fun s => by simp [addIdent]⟩
      | op k raw => exact ⟨hacc, fun s => by simp [addIdent]⟩
      | const v raw => exact ⟨hacc, fun s => by simp [addIdent]⟩
    obtain ⟨hnd, hmem⟩ := ih (addIdent acc t) hstep.1
    refine ⟨hnd, fun s => ?_⟩
    rw [List.foldl_cons] at *
    rw [hmem s, hstep.2 s]
    simp only [List.mem_cons]
    tauto

/-! ## C9 -/

/-- C9: `uniqueVariables` returns exactly the distinct identifier names of
the token list, sorted ascending under the (modelled) `localeCompare`
comparator, and this sorted order is the one the row enumerator uses for
bit positions: position `j` of the sorted list receives `rowBitVal n ro i j`
in row `i`. -/
theorem claim_variable_collection (toks : List Token) :
    (uniqueVariables toks).Pairwise (fun a b => lcLeB a b = true)
    ∧ (uniqueVariables toks).Nodup
    ∧ (∀ s, s ∈ uniqueVariables toks ↔ Token.ident s ∈ toks)
    ∧ (∀ (ro : RowOrder) (i j : Nat) (hj : j < (uniqueVariables toks).length),
        mkRowEnv (uniqueVariables toks) ro i
            ((uniqueVariables toks).get ⟨j, hj⟩)
          = some (rowBitVal (uniqueVariables toks).length ro i j)) := by
  obtain ⟨hnd, hmem⟩ := addIdent_fold_spec toks [] (by simp)
  have hperm := sortVars_perm (toks.foldl addIdent [])
  have hnd' : (uniqueVariables toks).Nodup := hperm.nodup_iff.mpr hnd
  refine ⟨sortVars_pairwise _, hnd', fun s => ?_, fun ro i j hj => ?_⟩
  · rw [uniqueVariables, hperm.mem_iff, hmem s]
    simp
  · exact mkRowEnv_get _ ro i j hj hnd'

/-! ## Subterm and identity lemmas for the AST -/

theorem Occurs_refl (n : Node) : Occurs n n := by
  cases n <;> simp [Occurs]

theorem occurs_id_mem {m : Node} : ∀ {n : Node}, Occurs m n → m.nid ∈ idsOf n := by
  intro n
  induction n with
  | var id name =>
    intro h
    rw [Occurs] at h
    subst h
    simp [idsOf, Node.nid]
  | const id v =>
    intro h
    rw [Occurs] at h
    subst h
    simp [idsOf, Node.nid]
  | unop id k a iha =>
    intro h
    rw [Occurs] at h
    rcases h with rfl | h
    · simp [idsOf, Node.nid]
    · exact List.mem_cons_of_mem _ (iha h)
  | binop id k a b iha ihb =>
    intro h
    rw [Occurs] at h
    rcases h with rfl | h | h
    · simp [idsOf, Node.nid]
    · exact List.mem_cons_of_mem _ (List.mem_append_left _ (iha h))
    · exact List.mem_cons_of_mem _ (List.mem_append_right _ (ihb h))

theorem occurs_vars_subset {m : Node} :
    ∀ {n : Node}, Occurs m n → ∀ x ∈ nodeVars m, x ∈ nodeVars n := by
  intro n
  induction n with
  | var id name =>
    intro h x hx
    rw [Occurs] at h
    subst h
    exact hx
  | const id v =>
    intro h x hx
    rw [Occurs] at h
    subst h
    exact hx
  | unop id k a iha =>
    intro h x hx
    rw [Occurs] at h
    rcases h with rfl | h
    · exact hx
    · exact iha h x hx
  | binop id k a b iha ihb =>
    intro h x hx
    rw [Occurs] at h
    rcases h with rfl | h | h
    · exact hx
    · exact List.mem_append_left _ (iha h x hx)
    · exact List.mem_append_right _ (ihb h x hx)

theorem occurs_unique : ∀ (root : Node), (idsOf root).Nodup →
    ∀ m m', Occurs m root → Occurs m' root → m.nid = m'.nid → m = m' := by
  intro root
  induction root with
  | var id name =>
    intro _ m m' hm hm' _
    rw [Occurs] at hm hm'
    rw [hm, hm']
  | const id v =>
    intro _ m m' hm hm' _
    rw [Occurs] at hm hm'
    rw [hm, hm']
  | unop id k a iha =>
    intro hnd m m' hm hm' hid
    have hnda : (idsOf a).Nodup := (List.nodup_cons.mp hnd).2
    have hidna : id ∉ idsOf a := (List.nodup_cons.mp hnd).1
    rw [Occurs] at hm hm'
    rcases hm with rfl | hm <;> rcases hm' with rfl | hm'
    · rfl
    · exact absurd (show id ∈ idsOf a by
        rw [show id = m'.nid from hid]; exact occurs_id_mem hm') hidna
    · exact absurd (show id ∈ idsOf a by
        rw [show id = m.nid from hid.symm]; exact occurs_id_mem hm) hidna
    · exact iha hnda m m' hm hm' hid
  | binop id k a b iha ihb =>
    intro hnd m m' hm hm' hid
    have hnd' := List.nodup_cons.mp hnd
    have happ := List.nodup_append.mp hnd'.2
    have hnda : (idsOf a).Nodup := happ.1
    have hndb : (idsOf b).Nodup := happ.2.1
    have hdisj : (idsOf a).Disjoint (idsOf b) := happ.2.2
    have hidn : id ∉ idsOf a ++ idsOf b := hnd'.1
    rw [Occurs] at hm hm'
    rcases hm with rfl | hm | hm <;> rcases hm' with rfl | hm' | hm'
    · rfl
    · exact absurd (List.mem_append_left _ (show id ∈ idsOf a by
        rw [show id = m'.nid from hid]; exact occurs_id_mem hm')) hidn
    · exact absurd (List.mem_append_right _ (show id ∈ idsOf b by
        rw [show id = m'.nid from hid]; exact occurs_id_mem hm')) hidn
    · exact absurd (List.mem_append_left _ (show id ∈ idsOf a by
        rw [show id = m.nid from hid.symm]; exact occurs_id_mem hm)) hidn
    · exact iha hnda m m' hm hm' hid
    · exact (hdisj (occurs_id_mem hm) (show m.nid ∈ idsOf b by
        rw [hid]; exact occurs_id_mem hm')).elim
    · exact absurd (List.mem_append_right _ (show id ∈ idsOf b by
        rw [show id = m.nid from hid.symm]; exact occurs_id_mem hm)) hidn
    · exact (hdisj (occurs_id_mem hm') (show m'.nid ∈ idsOf b by
        rw [← hid]; exact occurs_id_mem hm)).elim
    · exact ihb hndb m m' hm hm' hid

theorem occurs_of_occurs_unop {i : Nat} {k : OpKey} {a : Node} :
    ∀ {root : Node}, Occurs (Node.unop i k a) root → Occurs a root := by
  intro root
  induction root with
  | var id name =>
    intro h
    rw [Occurs] at h
    exact absurd h (by simp)
  | const id v =>
    intro h
    rw [Occurs] at h
    exact absurd h (by simp)
  | unop id' k' a' ih =>
    intro h
    rw [Occurs] at h ⊢
    rcases h with heq | h
    · cases heq
      exact .inr (Occurs_refl _)
    · exact .inr (ih h)
  | binop id' k' a' b' iha ihb =>
    intro h
    rw [Occurs] at h ⊢
    rcases h with heq | h | h
    · exact absurd heq (by simp)
    · exact .inr (.inl (iha h))
    · exact .inr (.inr (ihb h))

theorem occurs_of_occurs_binop_left {i : Nat} {k : OpKey} {a b : Node} :
    ∀ {root : Node}, Occurs (Node.binop i k a b) root → Occurs a root := by
  intro root
  induction root with
  | var id name =>
    intro h
    rw [Occurs] at h
    exact absurd h (by simp)
  | const id v =>
    intro h
    rw [Occurs] at h
    exact absurd h (by simp)
  | unop id' k' a' ih =>
    intro h
    rw [Occurs] at h ⊢
    rcases h with heq | h
    · exact absurd heq (by simp)
    · exact .inr (ih h)
  | binop id' k' a' b' iha ihb =>
    intro h
    rw [Occurs] at h ⊢
    rcases h with heq | h | h
    · cases heq
      exact .inr (.inl (Occurs_refl _))
    · exact .inr (.inl (iha h))
    · exact .inr (.inr (ihb h))

theorem occurs_of_occurs_binop_right {i : Nat} {k : OpKey} {a b : Node} :
    ∀ {root : Node}, Occurs (Node.binop i k a b) root → Occurs b root := by
  intro root
  induction root with
  | var id name =>
    intro h
    rw [Occurs] at h
    exact absurd h (by simp)
  | const id v =>
    intro h
    rw [Occurs] at h
    exact absurd h (by simp)
  | unop id' k' a' ih =>
    intro h
    rw [Occurs] at h ⊢
    rcases h with heq | h
    · exact absurd heq (by simp)
    · exact .inr (ih h)
  | binop id' k' a' b' iha ihb =>
    intro h
    rw [Occurs] at h ⊢
    rcases h with heq | h | h
    · cases heq
      exact .inr (.inr (Occurs_refl _))
    · exact .inr (.inl (iha h))
    · exact .inr (.inr (ihb h))

/-! ## Correctness of the memoized evaluator -/

theorem computeValue_var (id : Nat) (name : String) (env : Env)
    (cache : List (Nat × Bool)) :
    computeValue (Node.var id name) env cache
      = match cache.lookup id with
        | some v => .ok (v, cache)
        | none =>
          match env name with
          | some b => .ok (b, (id, b) :: cache)
          | none => .error ("Unbound variable '" ++ name ++ "'") := by
  rw [computeValue]
  rfl

theorem computeValue_const (id : Nat) (v : Bool) (env : Env)
    (cache : List (Nat × Bool)) :
    computeValue (Node.const id v) env cache
      = match cache.lookup id with
        | some w => .ok (w, cache)
        | none => .ok (v, (id, v) :: cache) := by
  rw [computeValue]
  rfl

theorem computeValue_unop (id : Nat) (k : OpKey) (a : Node) (env : Env)
    (cache : List (Nat × Bool)) :
    computeValue (Node.unop id k a) env cache
      = match cache.lookup id with
        | some v => .ok (v, cache)
        | none =>
          match computeValue a env cache with
          | .error e => .error e
          | .ok (va, c1) => .ok (opFn1 k va, (id, opFn1 k va) :: c1) := by
  rw [computeValue]
  rfl

theorem computeValue_binop (id : Nat) (k : OpKey) (a b : Node) (env : Env)
    (cache : List (Nat × Bool)) :
    computeValue (Node.binop id k a b) env cache
      = match cache.lookup id with
        | some v => .ok (v, cache)
        | none =>
          match computeValue a env cache with
          | .error e => .error e
          | .ok (va, c1) =>
            match computeValue b env c1 with
            | .error e => .error e
            | .ok (vb, c2) => .ok (opFn2 k va vb, (id, opFn2 k va vb) :: c2) := by
  rw [computeValue]
  rfl

theorem computeValue_correct (root : Node) (env : Env)
    (hnd : (idsOf root).Nodup)
    (hbound : ∀ x ∈ nodeVars root, (env x).isSome) :
    ∀ n, Occurs n root → ∀ cache, CacheSound root env cache →
      ∃ cache', computeValue n env cache = .ok (evalNodeD n env, cache')
        ∧ CacheSound root env cache' := by
  intro n
  induction n with
  | var id name =>
    intro hocc cache hcs
    cases hl : cache.lookup id with
    | some v =>
      refine ⟨cache, ?_, hcs⟩
      rw [computeValue_var, hl,
        hcs (id, v) (lookup_eq_some_mem hl) (Node.var id name) hocc rfl]
    | none =>
      have hb : (env name).isSome :=
        hbound name (occurs_vars_subset hocc name (by simp [nodeVars]))
      cases he : env name with
      | none => rw [he] at hb; simp at hb
      | some v =>
        refine ⟨(id, v) :: cache, ?_, ?_⟩
        · rw [computeValue_var, hl, he]
          simp [evalNodeD, he]
        · intro p hp m hm hid
          rcases List.mem_cons.mp hp with rfl | hp
          · have hmeq : m = Node.var id name :=
              occurs_unique root hnd m _ hm hocc (by simpa [Node.nid] using hid)
            rw [hmeq]
            simp [evalNodeD, he]
          · exact hcs p hp m hm hid
  | const id v =>
    intro hocc cache hcs
    cases hl : cache.lookup id with
    | some w =>
      refine ⟨cache, ?_, hcs⟩
      rw [computeValue_const, hl,
        hcs (id, w) (lookup_eq_some_mem hl) (Node.const id v) hocc rfl]
    | none =>
      refine ⟨(id, v) :: cache, ?_, ?_⟩
      · rw [computeValue_const, hl]
        rfl
      · intro p hp m hm hid
        rcases List.mem_cons.mp hp with rfl | hp
        · have hmeq : m = Node.const id v :=
            occurs_unique root hnd m _ hm hocc (by simpa [Node.nid] using hid)
          rw [hmeq]
          simp [evalNodeD]
        · exact hcs p hp m hm hid
  | unop id k a iha =>
    intro hocc cache hcs
    cases hl : cache.lookup id with
    | some v =>
      refine ⟨cache, ?_, hcs⟩
      rw [computeValue_unop, hl,
        hcs (id, v) (lookup_eq_some_mem hl) (Node.unop id k a) hocc rfl]
    | none =>
      obtain ⟨c1, hc1, hcs1⟩ := iha (occurs_of_occurs_unop hocc) cache hcs
      refine ⟨(id, opFn1 k (evalNodeD a env)) :: c1, ?_, ?_⟩
      · rw [computeValue_unop, hl, hc1]
        rfl
      · intro p hp m hm hid
        rcases List.mem_cons.mp hp with rfl | hp
        · have hmeq : m = Node.unop id k a :=
            occurs_unique root hnd m _ hm hocc (by simpa [Node.nid] using hid)
          rw [hmeq]
          simp [evalNodeD]
        · exact hcs1 p hp m hm hid
  | binop id k a b iha ihb =>
    intro hocc cache hcs
    cases hl : cache.lookup id with
    | some v =>
      refine ⟨cache, ?_, hcs⟩
      rw [computeValue_binop, hl,
        hcs (id, v) (lookup_eq_some_mem hl) (Node.binop id k a b) hocc rfl]
    | none =>
      obtain ⟨c1, hc1, hcs1⟩ := iha (occurs_of_occurs_binop_left hocc) cache hcs
      obtain ⟨c2, hc2, hcs2⟩ := ihb (occurs_of_occurs_binop_right hocc) c1 hcs1
      refine ⟨(id, opFn2 k (evalNodeD a env) (evalNodeD b env)) :: c2, ?_, ?_⟩
      · simp only [computeValue_binop, hl, hc1, hc2, evalNodeD]
      · intro p hp m hm hid
        rcases List.mem_cons.mp hp with rfl | hp
        · have hmeq : m = Node.binop id k a b :=
            occurs_unique root hnd m _ hm hocc (by simpa [Node.nid] using hid)
          rw [hmeq]
          simp [evalNodeD]
        · exact hcs2 p hp m hm hid

/-! ## Unfolding equations for the stack walks -/

theorem rpnToAstGo_nil (stack : List Node) (nid : Nat) :
    rpnToAstGo [] stack nid
      = match stack with
        | [n] => .ok n
        | _ => .error "Invalid expression: could not build AST" := rfl

theorem rpnToAstGo_identE (name : String) (ts : List Token) (stack : List Node)
    (nid : Nat) :
    rpnToAstGo (Token.ident name :: ts) stack nid
      = rpnToAstGo ts (Node.var nid name :: stack) (nid + 1) := rfl

theorem rpnToAstGo_constE (v : Bool) (raw : String) (ts : List Token)
    (stack : List Node) (nid : Nat) :
    rpnToAstGo (Token.const v raw :: ts) stack nid
      = rpnToAstGo ts (Node.const nid v :: stack) (nid + 1) := rfl

theorem rpnToAstGo_opE (k : OpKey) (raw : String) (ts : List Token)
    (stack : List Node) (nid : Nat) :
    rpnToAstGo (Token.op k raw :: ts) stack nid
      = if opArity k = 1 then
          match stack with
          | a :: s => rpnToAstGo ts (Node.unop nid k a :: s) (nid + 1)
          | [] => .error "Invalid expression: missing operand for unary operator"
        else
          match stack with
          | b :: a :: s => rpnToAstGo ts (Node.binop nid k a b :: s) (nid + 1)
          | _ => .error "Invalid expression: missing operands for binary operator" := rfl

theorem rpnToAstGo_lparenE (ts : List Token) (stack : List Node) (nid : Nat) :
    rpnToAstGo (Token.lparen :: ts) stack nid
      = .error "Unexpected token in AST build" := rfl

theorem rpnToAstGo_rparenE (ts : List Token) (stack : List Node) (nid : Nat) :
    rpnToAstGo (Token.rparen :: ts) stack nid
      = .error "Unexpected token in AST build" := rfl

theorem evalRPNGo_identE (env : Env) (name : String) (ts : List Token)
    (stack : List Bool) :
    evalRPNGo env (Token.ident name :: ts) stack
      = match env name with
        | some v => evalRPNGo env ts (v :: stack)
        | none => .error ("Unbound variable '" ++ name ++ "'") := rfl

theorem evalRPNGo_constE (env : Env) (v : Bool) (raw : String) (ts : List Token)
    (stack : List Bool) :
    evalRPNGo env (Token.const v raw :: ts) stack
      = evalRPNGo env ts (v :: stack) := rfl

theorem evalRPNGo_opE (env : Env) (k : OpKey) (raw : String) (ts : List Token)
    (stack : List Bool) :
    evalRPNGo env (Token.op k raw :: ts) stack
      = if opArity k = 1 then
          match stack with
          | a :: s => evalRPNGo env ts (opFn1 k a :: s)
          | [] => .error "Invalid expression: missing operand for unary operator"
        else
          match stack with
          | b :: a :: s => evalRPNGo env ts (opFn2 k a b :: s)
          | _ => .error "Invalid expression: missing operands for binary operator" := rfl

/-! ## Simulation: the AST stack walk against direct evaluation -/

theorem rpnToAstGo_eval (env : Env) :
    ∀ (toks : List Token) (stack : List Node) (nid : Nat) (root : Node),
      rpnToAstGo toks stack nid = .ok root →
      (∀ name, Token.ident name ∈ toks → (env name).isSome) →
      (∀ m ∈ stack, ∀ x ∈ nodeVars m, (env x).isSome) →
      evalRPNGo env toks (stack.map (fun m => evalNodeD m env))
        = .ok (evalNodeD root env) := by
  intro toks
  induction toks with
  | nil =>
    intro stack nid root hok hb hbs
    rw [rpnToAstGo_nil] at hok
    cases stack with
    | nil => simp at hok
    | cons n rest =>
      cases rest with
      | nil =>
        simp at hok
        subst hok
        simp [evalRPNGo]
      | cons n2 r2 => simp at hok
  | cons t ts ih =>
    intro stack nid root hok hb hbs
    cases t with
    | ident name =>
      rw [rpnToAstGo_identE] at hok
      have hbn : (env name).isSome := hb name (by simp)
      cases he : env name with
      | none => rw [he] at hbn; simp at hbn
      | some v =>
        rw [evalRPNGo_identE, he]
        have hstack : ∀ m ∈ (Node.var nid name :: stack),
            ∀ x ∈ nodeVars m, (env x).isSome := by
          intro m hm x hx
          rcases List.mem_cons.mp hm with rfl | hm
          · simp [nodeVars] at hx
            subst hx
            rw [he]
            rfl
          · exact hbs m hm x hx
        have := ih (Node.var nid name :: stack) (nid + 1) root hok
          (fun nm h => hb nm (List.mem_cons_of_mem _ h)) hstack
        simpa [evalNodeD, he] using this
    | const v raw =>
      rw [rpnToAstGo_constE] at hok
      rw [evalRPNGo_constE]
      have hstack : ∀ m ∈ (Node.const nid v :: stack),
          ∀ x ∈ nodeVars m, (env x).isSome := by
        intro m hm x hx
        rcases List.mem_cons.mp hm with rfl | hm
        · simp [nodeVars] at hx
        · exact hbs m hm x hx
      have := ih (Node.const nid v :: stack) (nid + 1) root hok
        (fun nm h => hb nm (List.mem_cons_of_mem _ h)) hstack
      simpa [evalNodeD] using this
    | op k raw =>
      rw [rpnToAstGo_opE] at hok
      rw [evalRPNGo_opE]
      by_cases hk : opArity k = 1
      · rw [if_pos hk] at hok ⊢
        cases stack with
        | nil => simp at hok
        | cons a s =>
          have hstack : ∀ m ∈ (Node.unop nid k a :: s),
              ∀ x ∈ nodeVars m, (env x).isSome := by
            intro m hm x hx
            rcases List.mem_cons.mp hm with rfl | hm
            · exact hbs a (List.mem_cons_self _ _) x hx
            · exact hbs m (List.mem_cons_of_mem _ hm) x hx
          have := ih (Node.unop nid k a :: s) (nid + 1) root hok
            (fun nm h => hb nm (List.mem_cons_of_mem _ h)) hstack
          simpa [evalNodeD] using this
      · rw [if_neg hk] at hok ⊢
        cases stack with
        | nil => simp at hok
        | cons b s0 =>
          cases s0 with
          | nil => simp at hok
          | cons a s =>
            have hstack : ∀ m ∈ (Node.binop nid k a b :: s),
                ∀ x ∈ nodeVars m, (env x).isSome := by
              intro m hm x hx
              rcases List.mem_cons.mp hm with rfl | hm
              · simp only [nodeVars, List.mem_append] at hx
                rcases hx with hx | hx
                · exact hbs a (List.mem_cons_of_mem _ (List.mem_cons_self _ _)) x hx
                · exact hbs b (List.mem_cons_self _ _) x hx
              · exact hbs m
                  (List.mem_cons_of_mem _ (List.mem_cons_of_mem _ hm)) x hx
            have := ih (Node.binop nid k a b :: s) (nid + 1) root hok
              (fun nm h => hb nm (List.mem_cons_of_mem _ h)) hstack
            simpa [evalNodeD] using this
    | lparen =>
      rw [rpnToAstGo_lparenE] at hok
      simp at hok
    | rparen =>
      rw [rpnToAstGo_rparenE] at hok
      simp at hok

/-! ## Freshness of node identities and origin of variables -/

theorem rpnToAstGo_ids :
    ∀ (toks : List Token) (stack : List Node) (nid : Nat) (root : Node),
      rpnToAstGo toks stack nid = .ok root →
      (idsOfStack stack).Nodup →
      (∀ x ∈ idsOfStack stack, x < nid) →
      (idsOf root).Nodup := by
  intro toks
  induction toks with
  | nil =>
    intro stack nid root hok hnd hlt
    rw [rpnToAstGo_nil] at hok
    cases stack with
    | nil => simp at hok
    | cons n rest =>
      cases rest with
      | nil =>
        simp at hok
        subst hok
        simpa [idsOfStack] using hnd
      | cons n2 r2 => simp at hok
  | cons t ts ih =>
    intro stack nid root hok hnd hlt
    cases t with
    | ident name =>
      rw [rpnToAstGo_identE] at hok
      have hflat : idsOfStack (Node.var nid name :: stack)
          = nid :: idsOfStack stack := rfl
      refine ih _ _ root hok ?_ ?_
      · rw [hflat]
        exact List.nodup_cons.mpr
          ⟨fun hmem => absurd (hlt nid hmem) (lt_irrefl nid), hnd⟩
      · intro x hx
        rw [hflat] at hx
        rcases List.mem_cons.mp hx with rfl | hx
        · omega
        · exact Nat.lt_succ_of_lt (hlt x hx)
    | const v raw =>
      rw [rpnToAstGo_constE] at hok
      have hflat : idsOfStack (Node.const nid v :: stack)
          = nid :: idsOfStack stack := rfl
      refine ih _ _ root hok ?_ ?_
      · rw [hflat]
        exact List.nodup_cons.mpr
          ⟨fun hmem => absurd (hlt nid hmem) (lt_irrefl nid), hnd⟩
      · intro x hx
        rw [hflat] at hx
        rcases List.mem_cons.mp hx with rfl | hx
        · omega
        · exact Nat.lt_succ_of_lt (hlt x hx)
    | op k raw =>
      rw [rpnToAstGo_opE] at hok
      by_cases hk : opArity k = 1
      · rw [if_pos hk] at hok
        cases stack with
        | nil => simp at hok
        | cons a s =>
          have hflat : idsOfStack (Node.unop nid k a :: s)
              = nid :: idsOfStack (a :: s) := rfl
          refine ih _ _ root hok ?_ ?_
          · rw [hflat]
            exact List.nodup_cons.mpr
              ⟨fun hmem => absurd (hlt nid hmem) (lt_irrefl nid), hnd⟩
          · intro x hx
            rw [hflat] at hx
            rcases List.mem_cons.mp hx with rfl | hx
            · omega
            · exact Nat.lt_succ_of_lt (hlt x hx)
      · rw [if_neg hk] at hok
        cases stack with
        | nil => simp at hok
        | cons b s0 =>
          cases s0 with
          | nil => simp at hok
          | cons a s =>
            have hperm : List.Perm (idsOfStack (Node.binop nid k a b :: s))
                (nid :: idsOfStack (b :: a :: s)) := by
              rw [show idsOfStack (Node.binop nid k a b :: s)
                  = nid :: ((idsOf a ++ idsOf b) ++ idsOfStack s) from rfl,
                show idsOfStack (b :: a :: s)
                  = idsOf b ++ (idsOf a ++ idsOfStack s) from rfl]
              refine List.Perm.cons nid ?_
              exact (List.perm_append_comm.append_right _).trans
                (by rw [List.append_assoc])
            refine ih _ _ root hok ?_ ?_
            · refine hperm.nodup_iff.mpr ?_
              exact List.nodup_cons.mpr
                ⟨fun hmem => absurd (hlt nid hmem) (lt_irrefl nid), hnd⟩
            · intro x hx
              have hx' := hperm.mem_iff.mp hx
              rcases List.mem_cons.mp hx' with rfl | hx'
              · omega
              · exact Nat.lt_succ_of_lt (hlt x hx')
    | lparen =>
      rw [rpnToAstGo_lparenE] at hok
      simp at hok
    | rparen =>
      rw [rpnToAstGo_rparenE] at hok
      simp at hok

theorem rpnToAstGo_vars :
    ∀ (toks : List Token) (stack : List Node) (nid : Nat) (root : Node),
      rpnToAstGo toks stack nid = .ok root →
      ∀ x ∈ nodeVars root,
        Token.ident x ∈ toks ∨ ∃ m ∈ stack, x ∈ nodeVars m := by
  intro toks
  induction toks with
  | nil =>
    intro stack nid root hok x hx
    rw [rpnToAstGo_nil] at hok
    cases stack with
    | nil => simp at hok
    | cons n rest =>
      cases rest with
      | nil =>
        simp at hok
        subst hok
        exact .inr ⟨_, List.mem_cons_self _ _, hx⟩
      | cons n2 r2 => simp at hok
  | cons t ts ih =>
    intro stack nid root hok x hx
    cases t with
    | ident name =>
      rw [rpnToAstGo_identE] at hok
      rcases ih _ _ root hok x hx with h | ⟨m, hm, hxm⟩
      · exact .inl (List.mem_cons_of_mem _ h)
      · rcases List.mem_cons.mp hm with rfl | hm
        · simp [nodeVars] at hxm
          subst hxm
          exact .inl (List.mem_cons_self _ _)
        · exact .inr ⟨m, hm, hxm⟩
    | const v raw =>
      rw [rpnToAstGo_constE] at hok
      rcases ih _ _ root hok x hx with h | ⟨m, hm, hxm⟩
      · exact .inl (List.mem_cons_of_mem _ h)
      · rcases List.mem_cons.mp hm with rfl | hm
        · simp [nodeVars] at hxm
        · exact .inr ⟨m, hm, hxm⟩
    | op k raw =>
      rw [rpnToAstGo_opE] at hok
      by_cases hk : opArity k = 1
      · rw [if_pos hk] at hok
        cases stack with
        | nil => simp at hok
        | cons a s =>
          rcases ih _ _ root hok x hx with h | ⟨m, hm, hxm⟩
          · exact .inl (List.mem_cons_of_mem _ h)
          · rcases List.mem_cons.mp hm with rfl | hm
            · exact .inr ⟨a, List.mem_cons_self _ _, hxm⟩
            · exact .inr ⟨m, List.mem_cons_of_mem _ hm, hxm⟩
      · rw [if_neg hk] at hok
        cases stack with
        | nil => simp at hok
        | cons b s0 =>
          cases s0 with
          | nil => simp at hok
          | cons a s =>
            rcases ih _ _ root hok x hx with h | ⟨m, hm, hxm⟩
            · exact .inl (List.mem_cons_of_mem _ h)
            · rcases List.mem_cons.mp hm with rfl | hm
              · simp only [nodeVars, List.mem_append] at hxm
                rcases hxm with hxm | hxm
                · exact .inr ⟨a,
                    List.mem_cons_of_mem _ (List.mem_cons_self _ _), hxm⟩
                · exact .inr ⟨b, List.mem_cons_self _ _, hxm⟩
              · exact .inr ⟨m,
                  List.mem_cons_of_mem _ (List.mem_cons_of_mem _ hm), hxm⟩
    | lparen =>
      rw [rpnToAstGo_lparenE] at hok
      simp at hok
    | rparen =>
      rw [rpnToAstGo_rparenE] at hok
      simp at hok

/-! ## The parser only moves tokens around -/

theorem toRPNGo_nilE (out ops : List Token) :
    toRPNGo [] out ops
      = if ops.contains Token.lparen ∨ ops.contains Token.rparen then
          .error "Mismatched parentheses"
        else .ok (out ++ ops) := rfl

theorem toRPNGo_rparenE (ts out ops : List Token) :
    toRPNGo (Token.rparen :: ts) out ops
      = match popUntilLParen ops with
        | none => .error "Mismatched parentheses: missing \x22(\x22"
        | some (p, s) => toRPNGo ts (out ++ p) s := rfl

theorem popUntilLParen_mem_left :
    ∀ (ops p s : List Token), popUntilLParen ops = some (p, s) →
      ∀ t, t ∈ p → t ∈ ops := by
  intro ops
  induction ops with
  | nil =>
    intro p s h
    simp [popUntilLParen] at h
  | cons t0 rest ih =>
    intro p s h u hu
    by_cases hlp : t0 = Token.lparen
    · subst hlp
      rw [popUntilLParen] at h
      simp at h
      obtain ⟨h1, h2⟩ := h
      subst h1
      simp at hu
    · have hne : popUntilLParen (t0 :: rest)
          = (popUntilLParen rest).map (fun q => (t0 :: q.1, q.2)) := by
        cases t0 <;> first | rfl | exact absurd rfl hlp
      rw [hne] at h
      cases hrec : popUntilLParen rest with
      | none => rw [hrec] at h; simp at h
      | some q =>
        obtain ⟨p2, s2⟩ := q
        rw [hrec] at h
        simp at h
        obtain ⟨h1, h2⟩ := h
        subst h1
        rcases List.mem_cons.mp hu with rfl | hu
        · exact List.mem_cons_self _ _
        · exact List.mem_cons_of_mem _ (ih p2 s2 hrec u hu)

theorem popUntilLParen_mem_right :
    ∀ (ops p s : List Token), popUntilLParen ops = some (p, s) →
      ∀ t, t ∈ s → t ∈ ops := by
  intro ops
  induction ops with
  | nil =>
    intro p s h
    simp [popUntilLParen] at h
  | cons t0 rest ih =>
    intro p s h u hu
    by_cases hlp : t0 = Token.lparen
    · subst hlp
      rw [popUntilLParen] at h
      simp at h
      obtain ⟨h1, h2⟩ := h
      subst h2
      exact List.mem_cons_of_mem _ hu
    · have hne : popUntilLParen (t0 :: rest)
          = (popUntilLParen rest).map (fun q => (t0 :: q.1, q.2)) := by
        cases t0 <;> first | rfl | exact absurd rfl hlp
      rw [hne] at h
      cases hrec : popUntilLParen rest with
      | none => rw [hrec] at h; simp at h
      | some q =>
        obtain ⟨p2, s2⟩ := q
        rw [hrec] at h
        simp at h
        obtain ⟨h1, h2⟩ := h
        subst h2
        exact List.mem_cons_of_mem _ (ih p2 s2 hrec u hu)

theorem toRPNGo_idents :
    ∀ (toks out ops res : List Token),
      toRPNGo toks out ops = .ok res →
      ∀ name, Token.ident name ∈ res →
        Token.ident name ∈ toks ∨ Token.ident name ∈ out ∨ Token.ident name ∈ ops := by
  intro toks
  induction toks with
  | nil =>
    intro out ops res hok name hmem
    rw [toRPNGo_nilE] at hok
    split at hok
    · simp at hok
    · simp only [Except.ok.injEq] at hok
      subst hok
      rcases List.mem_append.mp hmem with h | h
      · exact .inr (.inl h)
      · exact .inr (.inr h)
  | cons t ts ih =>
    intro out ops res hok name hmem
    cases t with
    | ident v =>
      rcases ih _ _ _ hok name hmem with h | h | h
      · exact .inl (List.mem_cons_of_mem _ h)
      · rcases List.mem_append.mp h with h | h
        · exact .inr (.inl h)
        · simp at h
          rw [h]
          exact .inl (List.mem_cons_self _ _)
      · exact .inr (.inr h)
    | const v raw =>
      rcases ih _ _ _ hok name hmem with h | h | h
      · exact .inl (List.mem_cons_of_mem _ h)
      · rcases List.mem_append.mp h with h | h
        · exact .inr (.inl h)
        · simp at h
      · exact .inr (.inr h)
    | op k raw =>
      rcases ih _ _ _ hok name hmem with h | h | h
      · exact .inl (List.mem_cons_of_mem _ h)
      · rcases List.mem_append.mp h with h | h
        · exact .inr (.inl h)
        · rw [popOps_eq_takeWhile] at h
          exact .inr (.inr ((List.takeWhile_sublist _).subset h))
      · rcases List.mem_cons.mp h with h | h
        · simp at h
        · rw [popOps_eq_takeWhile] at h
          exact .inr (.inr ((List.dropWhile_sublist _).subset h))
    | lparen =>
      rcases ih _ _ _ hok name hmem with h | h | h
      · exact .inl (List.mem_cons_of_mem _ h)
      · exact .inr (.inl h)
      · rcases List.mem_cons.mp h with h | h
        · simp at h
        · exact .inr (.inr h)
    | rparen =>
      rw [toRPNGo_rparenE] at hok
      cases hpu : popUntilLParen ops with
      | none =>
        rw [hpu] at hok
        simp at hok
      | some ps =>
        obtain ⟨p, s⟩ := ps
        rw [hpu] at hok
        rcases ih _ _ _ hok name hmem with h | h | h
        · exact .inl (List.mem_cons_of_mem _ h)
        · rcases List.mem_append.mp h with h | h
          · exact .inr (.inl h)
          · exact .inr (.inr (popUntilLParen_mem_left ops p s hpu _ h))
        · exact .inr (.inr (popUntilLParen_mem_right ops p s hpu _ h))

/-! ## C1 -/

/-- C1: strategy agreement.  For every token sequence accepted by `toRPN`,
and every assignment binding all identifiers occurring in it, direct postfix
evaluation of the resulting sequence returns the same result as memoized
evaluation (fresh empty cache) of the root node built by `rpnToAst` from that
sequence. -/
theorem claim_strategy_agreement (ts rpn : List Token) (root : Node) (env : Env)
    (h1 : toRPN ts = .ok rpn)
    (h2 : rpnToAst rpn = .ok root)
    (hb : ∀ name, Token.ident name ∈ ts → (env name).isSome) :
    evalRPN rpn env = (computeValue root env []).map Prod.fst := by
  have hbr : ∀ name, Token.ident name ∈ rpn → (env name).isSome := by
    intro name h
    rcases toRPNGo_idents ts [] [] rpn h1 name h with h | h | h
    · exact hb name h
    · simp at h
    · simp at h
  have heval : evalRPN rpn env = .ok (evalNodeD root env) := by
    have := rpnToAstGo_eval env rpn [] 1 root h2 hbr (by intro m hm; simp at hm)
    simpa [evalRPN] using this
  have hnd : (idsOf root).Nodup :=
    rpnToAstGo_ids rpn [] 1 root h2 (by simp [idsOfStack])
      (by intro x hx; simp [idsOfStack] at hx)
  have hvars : ∀ x ∈ nodeVars root, (env x).isSome := by
    intro x hx
    rcases rpnToAstGo_vars rpn [] 1 root h2 x hx with h | ⟨m, hm, _⟩
    · exact hbr x h
    · simp at hm
  obtain ⟨c', hc', _⟩ := computeValue_correct root env hnd hvars root
    (Occurs_refl root) [] (by intro p hp; simp at hp)
  rw [heval, hc']
  rfl

theorem claim_strategy_agreement_witness :
    toRPN [Token.ident "a"] = .ok [Token.ident "a"]
    ∧ rpnToAst [Token.ident "a"] = .ok (Node.var 1 "a")
    ∧ (∀ name, Token.ident name ∈ [Token.ident "a"] →
        (((fun s => if s = "a" then some true else none) : Env) name).isSome)
    ∧ evalRPN [Token.ident "a"] (fun s => if s = "a" then some true else none)
        = (computeValue (Node.var 1 "a")
            (fun s => if s = "a" then some true else none) []).map Prod.fst :=
  ⟨rfl, rfl,
   by intro name h; simp at h; subst h; rfl,
   claim_strategy_agreement [Token.ident "a"] [Token.ident "a"] (Node.var 1 "a")
     (fun s => if s = "a" then some true else none) rfl rfl
     (by intro name h; simp at h; subst h; rfl)⟩

theorem claim_variable_collection_witness :
    0 < (uniqueVariables [Token.ident "b", Token.ident "a"]).length
    ∧ mkRowEnv (uniqueVariables [Token.ident "b", Token.ident "a"]) .F_FIRST 1
        ((uniqueVariables [Token.ident "b", Token.ident "a"]).get ⟨0, by decide⟩)
      = some (rowBitVal
          (uniqueVariables [Token.ident "b", Token.ident "a"]).length .F_FIRST 1 0) :=
  ⟨by decide,
   (claim_variable_collection [Token.ident "b", Token.ident "a"]).2.2.2
     .F_FIRST 1 0 (by decide)⟩

/-! ## Scanner steps on rendered text -/

theorem tokenizeGo_nilE (fuel i : Nat) : tokenizeGo fuel [] i = .ok [] := by
  cases fuel <;> rfl

theorem tokenizeGo_zeroE (c : Char) (cs : List Char) (i : Nat) :
    tokenizeGo 0 (c :: cs) i = .error "tokenizer: out of fuel" := rfl

theorem tokenizeGo_consE (fuel : Nat) (c : Char) (cs : List Char) (i : Nat) :
    tokenizeGo (fuel + 1) (c :: cs) i =
      (if c = ' ' ∨ c = '\t' ∨ c = '\n' ∨ c = '\r' then
        tokenizeGo fuel cs (i + 1)
      else if c = '(' then
        (tokenizeGo fuel cs (i + 1)).map (fun ts => Token.lparen :: ts)
      else if c = ')' then
        (tokenizeGo fuel cs (i + 1)).map (fun ts => Token.rparen :: ts)
      else
        match matchOperatorAt (c :: cs) with
        | some (m, k) =>
          (tokenizeGo fuel ((c :: cs).drop m.data.length) (i + m.data.length)).map
            (fun ts => Token.op k m :: ts)
        | none =>
          if isIdentStart c then
            let run := c :: cs.takeWhile isIdentPart
            let wordRaw := String.mk run
            let word := toLowerStr wordRaw
            let tk :=
              match ConstLexemes.lookup word with
              | some b => Token.const b wordRaw
              | none =>
                match OperatorLexemes.find? (fun o => o.1 == word) with
                | some o => Token.op o.2 wordRaw
                | none => Token.ident wordRaw
            (tokenizeGo fuel (cs.dropWhile isIdentPart) (i + run.length)).map
              (fun ts => tk :: ts)
          else if isDigit c then
            let run := c :: cs.takeWhile isDigit
            let numStr := String.mk run
            if numStr = "0" ∨ numStr = "1" then
              (tokenizeGo fuel (cs.dropWhile isDigit) (i + run.length)).map
                (fun ts => Token.const (numStr = "1") numStr :: ts)
            else
              .error ("Unexpected number '" ++ numStr ++
                "'. Only 0 or 1 are allowed as constants.")
          else
            .error ("Unexpected character '" ++ String.mk [c] ++
              "' at position " ++ toString (i + 1))) := rfl

theorem tokenizeGo_space (fuel : Nat) (l : List Char) (i : Nat) :
    tokenizeGo (fuel + 1) (' ' :: l) i = tokenizeGo fuel l (i + 1) := rfl

theorem tokenizeGo_lparen (fuel : Nat) (l : List Char) (i : Nat) :
    tokenizeGo (fuel + 1) ('(' :: l) i
      = (tokenizeGo fuel l (i + 1)).map (fun ts => Token.lparen :: ts) := rfl

theorem tokenizeGo_rparen (fuel : Nat) (l : List Char) (i : Nat) :
    tokenizeGo (fuel + 1) (')' :: l) i
      = (tokenizeGo fuel l (i + 1)).map (fun ts => Token.rparen :: ts) := rfl

theorem isPrefixOf_nil_left (l : List Char) :
    List.isPrefixOf ([] : List Char) l = true := by
  cases l <;> rfl

theorem isPrefixOf_cons_cons (a b : Char) (as bs : List Char) :
    List.isPrefixOf (a :: as) (b :: bs) = (a == b && List.isPrefixOf as bs) := rfl

theorem matchOperatorAt_label (k : OpKey) (l : List Char) :
    matchOperatorAt ((opLabel k).data ++ l) = some (opLabel k, k) := by
  cases k <;>
    simp [matchOperatorAt, OperatorLexemes, opLabel, List.find?,
      isPrefixOf_cons_cons, isPrefixOf_nil_left]

theorem tokenizeGo_opstep (fuel : Nat) (c : Char) (cs : List Char) (i : Nat)
    (m : String) (k : OpKey)
    (hws : ¬(c = ' ' ∨ c = '\t' ∨ c = '\n' ∨ c = '\r'))
    (hlp : c ≠ '(') (hrp : c ≠ ')')
    (hmo : matchOperatorAt (c :: cs) = some (m, k)) :
    tokenizeGo (fuel + 1) (c :: cs) i
      = (tokenizeGo fuel ((c :: cs).drop m.data.length) (i + m.data.length)).map
          (fun ts => Token.op k m :: ts) := by
  rw [tokenizeGo_consE, if_neg hws, if_neg hlp, if_neg hrp, hmo]

theorem tokenizeGo_label (k : OpKey) (fuel : Nat) (l : List Char) (i : Nat) :
    tokenizeGo (fuel + 1) ((opLabel k).data ++ l) i
      = (tokenizeGo fuel l (i + (opLabel k).data.length)).map
          (fun ts => Token.op k (opLabel k) :: ts) := by
  cases k with
  | NOT =>
    exact tokenizeGo_opstep fuel '!' l i "!" .NOT (by decide) (by decide)
      (by decide) (matchOperatorAt_label .NOT l)
  | AND =>
    exact tokenizeGo_opstep fuel '&' l i "&" .AND (by decide) (by decide)
      (by decide) (matchOperatorAt_label .AND l)
  | OR =>
    exact tokenizeGo_opstep fuel '|' l i "|" .OR (by decide) (by decide)
      (by decide) (matchOperatorAt_label .OR l)
  | XOR =>
    exact tokenizeGo_opstep fuel '^' l i "^" .XOR (by decide) (by decide)
      (by decide) (matchOperatorAt_label .XOR l)
  | IMP =>
    exact tokenizeGo_opstep fuel '-' ('>' :: l) i "->" .IMP (by decide)
      (by decide) (by decide) (matchOperatorAt_label .IMP l)
  | IFF =>
    exact tokenizeGo_opstep fuel '<' ('-' :: '>' :: l) i "<->" .IFF
      (by decide) (by decide) (by decide) (matchOperatorAt_label .IFF l)

theorem lexeme_facts :
    ∀ p ∈ OperatorLexemes, p.1.data ≠ [] ∧ ' ' ∉ p.1.data ∧ ')' ∉ p.1.data := by
  decide

theorem identStart_ne_special (c : Char) (h : isIdentStart c = true) :
    ¬(c = ' ' ∨ c = '\t' ∨ c = '\n' ∨ c = '\r') ∧ c ≠ '(' ∧ c ≠ ')' := by
  refine ⟨?_, ?_, ?_⟩
  · rintro (rfl | rfl | rfl | rfl) <;> exact absurd h (by decide)
  · rintro rfl; exact absurd h (by decide)
  · rintro rfl; exact absurd h (by decide)

theorem takeWhile_append_not (p : Char → Bool) (xs rest : List Char)
    (h : ∀ x ∈ xs, p x = true)
    (hr : ∀ r rs, rest = r :: rs → p r = false) :
    (xs ++ rest).takeWhile p = xs ∧ (xs ++ rest).dropWhile p = rest := by
  induction xs with
  | nil =>
    cases rest with
    | nil => exact ⟨rfl, rfl⟩
    | cons r rs =>
      simp [List.takeWhile_cons, List.dropWhile_cons, hr r rs rfl]
  | cons x xs ih =>
    have hx := h x (List.mem_cons_self _ _)
    have hrec := ih (fun y hy => h y (List.mem_cons_of_mem _ hy))
    simp [List.takeWhile_cons, List.dropWhile_cons, hx, hrec.1, hrec.2]

theorem safeRest_identPart (rest : List Char) (hr : SafeRest rest) :
    ∀ r rs, rest = r :: rs → isIdentPart r = false := by
  intro r rs heq
  subst heq
  rcases hr with rfl | rfl <;> decide

theorem matchOperatorAt_append_none (w rest : List Char)
    (hw : ∀ p ∈ OperatorLexemes, p.1.data.isPrefixOf w = false)
    (hr : SafeRest rest) :
    matchOperatorAt (w ++ rest) = none := by
  rw [matchOperatorAt, List.find?_eq_none]
  intro p hp hpre
  rw [List.isPrefixOf_iff_prefix] at hpre
  rcases Nat.lt_or_ge w.length p.1.data.length with hlt | hle
  · cases rest with
    | nil =>
      have := hpre.length_le
      rw [List.append_nil] at this
      omega
    | cons r rs =>
      obtain ⟨t, ht⟩ := hpre
      have h1 : (p.1.data ++ t)[w.length]? = some (p.1.data.get ⟨w.length, hlt⟩) := by
        rw [List.getElem?_append_left hlt]
        exact List.getElem?_eq_getElem hlt
      have h2 : (w ++ r :: rs)[w.length]? = some r := by
        rw [List.getElem?_append_right (Nat.le_refl _)]
        simp
      rw [ht] at h1
      have hpr : p.1.data.get ⟨w.length, hlt⟩ = r := by
        have := h1.symm.trans h2
        simpa using this
      have hmem : r ∈ p.1.data := hpr ▸ List.get_mem _ _ hlt
      have hfacts := lexeme_facts p hp
      rcases hr with rfl | rfl
      · exact hfacts.2.1 hmem
      · exact hfacts.2.2 hmem
  · have hpw : p.1.data <+: w := by
      rw [List.prefix_iff_eq_take] at hpre ⊢
      rwa [List.take_append_of_le_length hle] at hpre
    have := List.isPrefixOf_iff_prefix.mpr hpw
    rw [hw p hp] at this
    exact Bool.false_ne_true this

theorem tokenizeGo_word (fuel : Nat) (c : Char) (cs rest : List Char) (i : Nat)
    (hstart : isIdentStart c = true)
    (hparts : ∀ x ∈ cs, isIdentPart x = true)
    (hr : SafeRest rest)
    (hmo : matchOperatorAt (c :: (cs ++ rest)) = none) :
    tokenizeGo (fuel + 1) (c :: (cs ++ rest)) i
      = (tokenizeGo fuel rest (i + (c :: cs).length)).map
          (fun ts => tkOfWord (String.mk (c :: cs)) :: ts) := by
  have hsp := identStart_ne_special c hstart
  have htd := takeWhile_append_not isIdentPart cs rest hparts
    (safeRest_identPart rest hr)
  rw [tokenizeGo_consE, if_neg hsp.1, if_neg hsp.2.1, if_neg hsp.2.2, hmo]
  simp only [hstart, if_true, htd.1, htd.2]
  rfl

/-! ## The canonical rendering survives `trim` unchanged -/

theorem exmap_map {α β γ : Type} (x : Except String α) (f : α → β) (g : β → γ) :
    (x.map f).map g = x.map (fun a => g (f a)) := by
  cases x <;> rfl

theorem identPart_of_identStart (c : Char) (h : isIdentStart c = true) :
    isIdentPart c = true := by
  rw [isIdentStart, Bool.or_eq_true] at h
  rw [isIdentPart, Bool.or_eq_true, Bool.or_eq_true]
  rcases h with h | h
  · exact Or.inl (Or.inl h)
  · exact Or.inr h

theorem identPart_not_jsWS (c : Char) (h : isIdentPart c = true) :
    isJsWS c = false := by
  cases hj : isJsWS c
  · rfl
  · exfalso
    have h2 : jsWSChars.elem c = true := hj
    have hmem : c ∈ jsWSChars := List.elem_iff.mp h2
    simp only [jsWSChars, List.mem_cons, List.not_mem_nil, or_false] at hmem
    rcases hmem with rfl | rfl | rfl | rfl | rfl | rfl | rfl | rfl | rfl | rfl |
      rfl | rfl | rfl | rfl | rfl | rfl | rfl | rfl | rfl | rfl |
      rfl | rfl | rfl | rfl | rfl <;>
      exact absurd h (by decide)

theorem mem_of_getLastQ {α : Type} {l : List α} {a : α} (h : l.getLast? = some a) :
    a ∈ l := by
  rw [← List.head?_reverse] at h
  have hrm : a ∈ l.reverse := by
    cases hrev : l.reverse with
    | nil => rw [hrev] at h; exact absurd h (by simp)
    | cons d ds =>
      rw [hrev] at h
      injection h with h
      exact h ▸ List.mem_cons_self d ds
  exact List.mem_reverse.mp hrm

theorem formatNode_ends (n : Node) (hwf : WFNode n) :
    (formatNode n).data ≠ []
    ∧ (∀ c cs, (formatNode n).data = c :: cs → isJsWS c = false)
    ∧ (∀ c, (formatNode n).data.getLast? = some c → isJsWS c = false) := by
  induction n with
  | var id name =>
    obtain ⟨hshape, -, -⟩ := hwf
    cases hnd : name.data with
    | nil => rw [hnd] at hshape; exact hshape.elim
    | cons c0 cs0 =>
      rw [hnd] at hshape
      obtain ⟨hstart, hparts⟩ := hshape
      have hfmt : (formatNode (Node.var id name)).data = c0 :: cs0 := hnd
      refine ⟨by rw [hfmt]; simp, ?_, ?_⟩
      · intro c cs hc
        rw [hfmt] at hc
        injection hc with h1 _
        rw [← h1]
        exact identPart_not_jsWS c0 (identPart_of_identStart c0 hstart)
      · intro c hc
        rw [hfmt] at hc
        rcases List.mem_cons.mp (mem_of_getLastQ hc) with rfl | hmem
        · exact identPart_not_jsWS c (identPart_of_identStart c hstart)
        · exact identPart_not_jsWS c (hparts c hmem)
  | const id v =>
    cases v
    · refine ⟨by simp [formatNode], ?_, ?_⟩
      · intro c cs hc
        rw [show (formatNode (Node.const id false)).data = ['F'] from rfl] at hc
        injection hc with h1 _
        rw [← h1]; decide
      · intro c hc
        rw [show (formatNode (Node.const id false)).data = ['F'] from rfl] at hc
        injection hc with h1
        rw [← h1]; decide
    · refine ⟨by simp [formatNode], ?_, ?_⟩
      · intro c cs hc
        rw [show (formatNode (Node.const id true)).data = ['T'] from rfl] at hc
        injection hc with h1 _
        rw [← h1]; decide
      · intro c hc
        rw [show (formatNode (Node.const id true)).data = ['T'] from rfl] at hc
        injection hc with h1
        rw [← h1]; decide
  | unop id k a iha =>
    obtain ⟨hk, hwa⟩ := hwf
    obtain ⟨hne, hhead, hlast⟩ := iha hwa
    by_cases hop : a.isOpNode
    · have hfmt : (formatNode (Node.unop id k a)).data
          = '!' :: '(' :: ((formatNode a).data ++ [')']) := by
        simp [formatNode, hop, String.data_append, List.append_assoc]
      refine ⟨by rw [hfmt]; simp, ?_, ?_⟩
      · intro c cs hc
        rw [hfmt] at hc
        injection hc with h1 _
        rw [← h1]; decide
      · intro c hc
        rw [hfmt] at hc
        have hg : ('!' :: '(' :: ((formatNode a).data ++ [')'])).getLast?
            = some ')' := by
          rw [List.getLast?_cons_cons]
          rw [show '(' :: ((formatNode a).data ++ [')'])
            = ('(' :: (formatNode a).data) ++ [')'] from rfl]
          exact List.getLast?_concat _
        rw [hg] at hc
        injection hc with h1
        rw [← h1]; decide
    · have hfmt : (formatNode (Node.unop id k a)).data
          = '!' :: (formatNode a).data := by
        simp [formatNode, hop, String.data_append]
      refine ⟨by rw [hfmt]; simp, ?_, ?_⟩
      · intro c cs hc
        rw [hfmt] at hc
        injection hc with h1 _
        rw [← h1]; decide
      · intro c hc
        rw [hfmt] at hc
        cases hX : (formatNode a).data with
        | nil => exact absurd hX hne
        | cons d ds =>
          rw [hX, List.getLast?_cons_cons] at hc
          exact hlast c (by rw [hX]; exact hc)
  | binop id k a b iha ihb =>
    have hfmt : (formatNode (Node.binop id k a b)).data
        = ('(' :: ((formatNode a).data ++ ([' '] ++ ((opLabel k).data
            ++ ([' '] ++ (formatNode b).data))))) ++ [')'] := by
      simp [formatNode, String.data_append, List.append_assoc]
    refine ⟨by rw [hfmt]; simp, ?_, ?_⟩
    · intro c cs hc
      rw [hfmt, List.cons_append] at hc
      injection hc with h1 _
      rw [← h1]; decide
    · intro c hc
      rw [hfmt, List.getLast?_concat] at hc
      injection hc with h1
      rw [← h1]; decide

theorem jsTrim_eq_self (l : List Char)
    (hh : ∀ c cs, l = c :: cs → isJsWS c = false)
    (hl : ∀ c, l.getLast? = some c → isJsWS c = false) :
    jsTrimList l = l := by
  cases l with
  | nil => rfl
  | cons c cs =>
    rw [jsTrimList, List.dropWhile_cons,
      if_neg (show ¬(isJsWS c = true) by
        rw [hh c cs rfl]; exact Bool.false_ne_true)]
    cases hrev : (c :: cs).reverse with
    | nil => exact absurd hrev (by simp)
    | cons d ds =>
      have hd : (c :: cs).getLast? = some d := by
        rw [← List.head?_reverse, hrev]; rfl
      rw [List.dropWhile_cons,
        if_neg (show ¬(isJsWS d = true) by
          rw [hl d hd]; exact Bool.false_ne_true)]
      rw [← hrev, List.reverse_reverse]

/-! ## Re-scanning a rendering produces its token sequence -/

theorem data_bang_paren : ("!(" : String).data = ['!', '('] := rfl

theorem data_bang : ("!" : String).data = ['!'] := rfl

theorem data_lparen : ("(" : String).data = ['('] := rfl

theorem data_rparen : (")" : String).data = [')'] := rfl

theorem data_space : (" " : String).data = [' '] := rfl

theorem opLabel_len (k : OpKey) : 1 ≤ (opLabel k).data.length := by
  cases k <;> decide

theorem tokenizeGo_bang (fuel : Nat) (l : List Char) (i : Nat) :
    tokenizeGo (fuel + 1) ('!' :: l) i
      = (tokenizeGo fuel l (i + 1)).map (fun ts => Token.op OpKey.NOT "!" :: ts) :=
  tokenizeGo_opstep fuel '!' l i "!" .NOT (by decide) (by decide) (by decide)
    (matchOperatorAt_label .NOT l)

theorem tokenizeGo_fmt (n : Node) :
    ∀ (rest : List Char) (i fuel : Nat), WFNode n → SafeRest rest →
      ((formatNode n).data ++ rest).length ≤ fuel →
      ∃ fuel' i', rest.length ≤ fuel' ∧
        tokenizeGo fuel ((formatNode n).data ++ rest) i
          = (tokenizeGo fuel' rest i').map (fun ts => tokensOfNode n ++ ts) := by
  induction n with
  | var id name =>
    intro rest i fuel hwf hr hfuel
    obtain ⟨hshape, hw, hclass⟩ := hwf
    cases hnd : name.data with
    | nil => rw [hnd] at hshape; exact hshape.elim
    | cons c0 cs0 =>
      rw [hnd] at hshape
      obtain ⟨hstart, hparts⟩ := hshape
      have hfmt : (formatNode (Node.var id name)).data = c0 :: cs0 := hnd
      rw [hfmt] at hfuel ⊢
      have hlen : cs0.length + rest.length + 1 ≤ fuel := by
        rw [List.cons_append, List.length_cons, List.length_append] at hfuel
        omega
      obtain ⟨g, rfl⟩ : ∃ g, fuel = g + 1 := ⟨fuel - 1, by omega⟩
      have hw' : ∀ p ∈ OperatorLexemes, p.1.data.isPrefixOf (c0 :: cs0) = false := by
        intro p hp
        have := hw p hp
        rwa [hnd] at this
      have hmo : matchOperatorAt (c0 :: (cs0 ++ rest)) = none := by
        have := matchOperatorAt_append_none (c0 :: cs0) rest hw' hr
        rwa [List.cons_append] at this
      have hstep := tokenizeGo_word g c0 cs0 rest i hstart hparts hr hmo
      refine ⟨g, i + (c0 :: cs0).length, by omega, ?_⟩
      rw [List.cons_append, hstep]
      have hmk : String.mk (c0 :: cs0) = name := by rw [← hnd]
      rw [hmk, hclass]
      rfl
  | const id v =>
    intro rest i fuel hwf hr hfuel
    cases v with
    | false =>
      have hfmt : (formatNode (Node.const id false)).data = ['F'] := rfl
      rw [hfmt] at hfuel ⊢
      have hlen : rest.length + 1 ≤ fuel := by
        simp only [List.length_append, List.length_cons, List.length_nil] at hfuel
        omega
      obtain ⟨g, rfl⟩ : ∃ g, fuel = g + 1 := ⟨fuel - 1, by omega⟩
      have hmo : matchOperatorAt ('F' :: ([] ++ rest)) = none := by
        have := matchOperatorAt_append_none ['F'] rest (by decide) hr
        rwa [List.cons_append] at this
      have hstep := tokenizeGo_word g 'F' [] rest i (by decide) (by simp) hr hmo
      refine ⟨g, i + (['F'] : List Char).length, by omega, ?_⟩
      rw [List.cons_append, hstep]
      rfl
    | true =>
      have hfmt : (formatNode (Node.const id true)).data = ['T'] := rfl
      rw [hfmt] at hfuel ⊢
      have hlen : rest.length + 1 ≤ fuel := by
        simp only [List.length_append, List.length_cons, List.length_nil] at hfuel
        omega
      obtain ⟨g, rfl⟩ : ∃ g, fuel = g + 1 := ⟨fuel - 1, by omega⟩
      have hmo : matchOperatorAt ('T' :: ([] ++ rest)) = none := by
        have := matchOperatorAt_append_none ['T'] rest (by decide) hr
        rwa [List.cons_append] at this
      have hstep := tokenizeGo_word g 'T' [] rest i (by decide) (by simp) hr hmo
      refine ⟨g, i + (['T'] : List Char).length, by omega, ?_⟩
      rw [List.cons_append, hstep]
      rfl
  | unop id k a iha =>
    intro rest i fuel hwf hr hfuel
    obtain ⟨hk, hwa⟩ := hwf
    subst hk
    by_cases hop : a.isOpNode
    · have hfmt : (formatNode (Node.unop id OpKey.NOT a)).data ++ rest
          = '!' :: '(' :: ((formatNode a).data ++ (')' :: rest)) := by
        simp [formatNode, hop, String.data_append, data_bang_paren, data_rparen,
          List.append_assoc]
      rw [hfmt] at hfuel ⊢
      have hlen : (formatNode a).data.length + rest.length + 3 ≤ fuel := by
        simp only [List.length_cons, List.length_append] at hfuel
        omega
      obtain ⟨g1, rfl⟩ : ∃ g, fuel = g + 1 := ⟨fuel - 1, by omega⟩
      rw [tokenizeGo_bang]
      obtain ⟨g2, rfl⟩ : ∃ g, g1 = g + 1 := ⟨g1 - 1, by omega⟩
      rw [tokenizeGo_lparen]
      obtain ⟨f3, i3, hl3, heqa⟩ := iha (')' :: rest) (i + 1 + 1) g2 hwa
        (Or.inr rfl)
        (by simp only [List.length_cons, List.length_append]; omega)
      rw [heqa]
      have hl3' : rest.length + 1 ≤ f3 := by
        simp only [List.length_cons] at hl3
        omega
      obtain ⟨f4, rfl⟩ : ∃ g, f3 = g + 1 := ⟨f3 - 1, by omega⟩
      rw [tokenizeGo_rparen]
      refine ⟨f4, i3 + 1, by omega, ?_⟩
      cases hX : tokenizeGo f4 rest (i3 + 1) with
      | error e => simp [Except.map]
      | ok ts => simp [Except.map, tokensOfNode, hop, opLabel, List.append_assoc]
    · have hfmt : (formatNode (Node.unop id OpKey.NOT a)).data ++ rest
          = '!' :: ((formatNode a).data ++ rest) := by
        simp [formatNode, hop, String.data_append, data_bang, List.append_assoc]
      rw [hfmt] at hfuel ⊢
      have hlen : (formatNode a).data.length + rest.length + 1 ≤ fuel := by
        simp only [List.length_cons, List.length_append] at hfuel
        omega
      obtain ⟨g1, rfl⟩ : ∃ g, fuel = g + 1 := ⟨fuel - 1, by omega⟩
      rw [tokenizeGo_bang]
      obtain ⟨f3, i3, hl3, heqa⟩ := iha rest (i + 1) g1 hwa hr
        (by simp only [List.length_append]; omega)
      rw [heqa]
      refine ⟨f3, i3, hl3, ?_⟩
      cases hX : tokenizeGo f3 rest i3 with
      | error e => simp [Except.map]
      | ok ts => simp [Except.map, tokensOfNode, hop, opLabel]
  | binop id k a b iha ihb =>
    intro rest i fuel hwf hr hfuel
    obtain ⟨hk, hwa, hwb⟩ := hwf
    have hfmt : (formatNode (Node.binop id k a b)).data ++ rest
        = '(' :: ((formatNode a).data ++ (' ' :: ((opLabel k).data
            ++ (' ' :: ((formatNode b).data ++ (')' :: rest)))))) := by
      simp [formatNode, String.data_append, data_lparen, data_rparen, data_space,
        List.append_assoc]
    rw [hfmt] at hfuel ⊢
    have hlab := opLabel_len k
    have hlen : (formatNode a).data.length + (opLabel k).data.length
        + (formatNode b).data.length + rest.length + 4 ≤ fuel := by
      simp only [List.length_cons, List.length_append] at hfuel
      omega
    obtain ⟨g1, rfl⟩ : ∃ g, fuel = g + 1 := ⟨fuel - 1, by omega⟩
    rw [tokenizeGo_lparen]
    obtain ⟨f2, i2, hl2, heqa⟩ := iha (' ' :: ((opLabel k).data
        ++ (' ' :: ((formatNode b).data ++ (')' :: rest))))) (i + 1) g1 hwa
      (Or.inl rfl)
      (by simp only [List.length_cons, List.length_append]; omega)
    rw [heqa]
    have hl2' : (opLabel k).data.length + (formatNode b).data.length
        + rest.length + 3 ≤ f2 := by
      simp only [List.length_cons, List.length_append] at hl2
      omega
    obtain ⟨f3, rfl⟩ : ∃ g, f2 = g + 1 := ⟨f2 - 1, by omega⟩
    rw [tokenizeGo_space]
    obtain ⟨f4, rfl⟩ : ∃ g, f3 = g + 1 := ⟨f3 - 1, by omega⟩
    rw [tokenizeGo_label]
    obtain ⟨f5, rfl⟩ : ∃ g, f4 = g + 1 := ⟨f4 - 1, by omega⟩
    rw [tokenizeGo_space]
    obtain ⟨f6, i6, hl6, heqb⟩ := ihb (')' :: rest)
      (i2 + 1 + (opLabel k).data.length + 1) f5 hwb (Or.inr rfl)
      (by simp only [List.length_cons, List.length_append]; omega)
    rw [heqb]
    obtain ⟨f7, rfl⟩ : ∃ g, f6 = g + 1 :=
      ⟨f6 - 1, by simp only [List.length_cons] at hl6; omega⟩
    rw [tokenizeGo_rparen]
    refine ⟨f7, i6 + 1, by simp only [List.length_cons] at hl6; omega, ?_⟩
    cases hX : tokenizeGo f7 rest (i6 + 1) with
    | error e => simp [Except.map]
    | ok ts => simp [Except.map, tokensOfNode, List.append_assoc]

/-! ## Feeding a rendered token sequence to the shunting-yard -/

theorem toRPNGo_identE (v : String) (ts out ops : List Token) :
    toRPNGo (Token.ident v :: ts) out ops
      = toRPNGo ts (out ++ [Token.ident v]) ops := rfl

theorem toRPNGo_constE (v : Bool) (raw : String) (ts out ops : List Token) :
    toRPNGo (Token.const v raw :: ts) out ops
      = toRPNGo ts (out ++ [Token.const v raw]) ops := rfl

theorem toRPNGo_opE (k : OpKey) (raw : String) (ts out ops : List Token) :
    toRPNGo (Token.op k raw :: ts) out ops
      = toRPNGo ts (out ++ (popOps k ops).1)
          (Token.op k raw :: (popOps k ops).2) := rfl

theorem toRPNGo_lparenE (ts out ops : List Token) :
    toRPNGo (Token.lparen :: ts) out ops
      = toRPNGo ts out (Token.lparen :: ops) := rfl

theorem popOps_not_stack (ops : List Token) : popOps OpKey.NOT ops = ([], ops) := by
  cases ops with
  | nil => rfl
  | cons t rest =>
    cases t with
    | op tk raw =>
      have hcond : ¬(opPrec tk > opPrec OpKey.NOT
          ∨ (opPrec tk = opPrec OpKey.NOT ∧ opAssoc OpKey.NOT = Assoc.left)) := by
        cases tk <;> decide
      simp [popOps, hcond]
    | lparen => rfl
    | rparen => rfl
    | const v raw => rfl
    | ident v => rfl

theorem popOps_not_fst (ops : List Token) : (popOps OpKey.NOT ops).1 = [] := by
  rw [popOps_not_stack]

theorem popOps_not_snd (ops : List Token) : (popOps OpKey.NOT ops).2 = ops := by
  rw [popOps_not_stack]

theorem popOps_pend (k : OpKey) (hk : k ≠ OpKey.NOT) (n : Node) (hn : WFNode n)
    (ops : List Token) :
    popOps k (pendOf n ++ Token.lparen :: ops) = (pendOf n, Token.lparen :: ops) := by
  cases n with
  | var id name => rfl
  | const id v => rfl
  | binop id k0 a b => rfl
  | unop id k0 a =>
    obtain ⟨hk0, -⟩ := hn
    subst hk0
    have hcond : opPrec OpKey.NOT > opPrec k
        ∨ (opPrec OpKey.NOT = opPrec k ∧ opAssoc k = Assoc.left) := by
      left
      cases k <;> first | exact absurd rfl hk | decide
    show popOps k (Token.op OpKey.NOT (opLabel OpKey.NOT)
      :: Token.lparen :: ops) = _
    simp [popOps, hcond, pendOf]

theorem popOps_pend_fst (k : OpKey) (hk : k ≠ OpKey.NOT) (n : Node)
    (hn : WFNode n) (ops : List Token) :
    (popOps k (pendOf n ++ Token.lparen :: ops)).1 = pendOf n := by
  rw [popOps_pend k hk n hn ops]

theorem popOps_pend_snd (k : OpKey) (hk : k ≠ OpKey.NOT) (n : Node)
    (hn : WFNode n) (ops : List Token) :
    (popOps k (pendOf n ++ Token.lparen :: ops)).2 = Token.lparen :: ops := by
  rw [popOps_pend k hk n hn ops]

theorem popUntil_pend (n : Node) (ops : List Token) :
    popUntilLParen (pendOf n ++ Token.lparen :: ops) = some (pendOf n, ops) := by
  cases n <;> rfl

theorem popUntil_pend_op (n : Node) (k : OpKey) (raw : String) (ops : List Token) :
    popUntilLParen (pendOf n ++ (Token.op k raw :: (Token.lparen :: ops)))
      = some (pendOf n ++ [Token.op k raw], ops) := by
  cases n <;> rfl

theorem pendOf_leaf (n : Node) (hop : n.isOpNode = false) : pendOf n = [] := by
  cases n with
  | var id name => rfl
  | const id v => rfl
  | unop id k a => exact absurd hop (by simp [Node.isOpNode])
  | binop id k a b => exact absurd hop (by simp [Node.isOpNode])

theorem flushOf_leaf (n : Node) (hop : n.isOpNode = false) :
    flushOf n = postfixOfNode n := by
  cases n with
  | var id name => rfl
  | const id v => rfl
  | unop id k a => exact absurd hop (by simp [Node.isOpNode])
  | binop id k a b => rfl

theorem flush_pend (n : Node) : flushOf n ++ pendOf n = postfixOfNode n := by
  cases n with
  | var id name => rfl
  | const id v => rfl
  | unop id k a => rfl
  | binop id k a b => simp [flushOf, pendOf, postfixOfNode]

theorem toRPNGo_fmt (n : Node) :
    ∀ (_hn : WFNode n) (ts out ops : List Token),
      toRPNGo (tokensOfNode n ++ ts) out ops
        = toRPNGo ts (out ++ flushOf n) (pendOf n ++ ops) := by
  induction n with
  | var id name =>
    intro _ ts out ops
    show toRPNGo (Token.ident name :: ts) out ops = _
    rw [toRPNGo_identE]
    rfl
  | const id v =>
    intro _ ts out ops
    show toRPNGo (Token.const v (if v then "T" else "F") :: ts) out ops = _
    rw [toRPNGo_constE]
    rfl
  | unop id k a iha =>
    rintro ⟨hk, hwa⟩ ts out ops
    subst hk
    by_cases hop : a.isOpNode
    · have hseq : tokensOfNode (Node.unop id OpKey.NOT a) ++ ts
          = Token.op OpKey.NOT (opLabel OpKey.NOT)
            :: Token.lparen :: (tokensOfNode a ++ (Token.rparen :: ts)) := by
        simp [tokensOfNode, hop, List.append_assoc]
      rw [hseq, toRPNGo_opE, popOps_not_fst, popOps_not_snd, toRPNGo_lparenE,
        iha hwa, toRPNGo_rparenE, popUntil_pend a]
      show toRPNGo ts (((out ++ []) ++ flushOf a) ++ pendOf a)
        (Token.op OpKey.NOT (opLabel OpKey.NOT) :: ops) = _
      rw [show ((out ++ []) ++ flushOf a) ++ pendOf a
          = out ++ (flushOf a ++ pendOf a) from by simp [List.append_assoc]]
      rw [flush_pend a]
      simp [flushOf, pendOf]
    · have hseq : tokensOfNode (Node.unop id OpKey.NOT a) ++ ts
          = Token.op OpKey.NOT (opLabel OpKey.NOT) :: (tokensOfNode a ++ ts) := by
        simp [tokensOfNode, hop]
      rw [hseq, toRPNGo_opE, popOps_not_fst, popOps_not_snd, iha hwa]
      rw [pendOf_leaf a (bool_eq_false hop), flushOf_leaf a (bool_eq_false hop)]
      simp [flushOf, pendOf]
  | binop id k a b iha ihb =>
    rintro ⟨hk, hwa, hwb⟩ ts out ops
    have hseq : tokensOfNode (Node.binop id k a b) ++ ts
        = Token.lparen :: (tokensOfNode a ++ (Token.op k (opLabel k)
            :: (tokensOfNode b ++ (Token.rparen :: ts)))) := by
      simp [tokensOfNode, List.append_assoc]
    rw [hseq, toRPNGo_lparenE, iha hwa, toRPNGo_opE,
      popOps_pend_fst k hk a hwa ops, popOps_pend_snd k hk a hwa ops,
      ihb hwb, toRPNGo_rparenE, popUntil_pend_op b k (opLabel k) ops]
    show toRPNGo ts ((((out ++ flushOf a) ++ pendOf a) ++ flushOf b)
      ++ (pendOf b ++ [Token.op k (opLabel k)])) ops = _
    rw [show (((out ++ flushOf a) ++ pendOf a) ++ flushOf b)
          ++ (pendOf b ++ [Token.op k (opLabel k)])
        = out ++ ((flushOf a ++ pendOf a)
          ++ ((flushOf b ++ pendOf b) ++ [Token.op k (opLabel k)]))
      from by simp [List.append_assoc]]
    rw [flush_pend a, flush_pend b]
    simp [flushOf, pendOf, postfixOfNode]

theorem contains_iff_mem' {α : Type} [BEq α] [LawfulBEq α] (l : List α) (a : α) :
    l.contains a = true ↔ a ∈ l := by
  simp [List.contains, List.elem_iff]

theorem pend_no_paren (n : Node) :
    ¬(((pendOf n ++ []).contains Token.lparen = true)
      ∨ ((pendOf n ++ []).contains Token.rparen = true)) := by
  intro h
  rcases h with h | h <;> rw [contains_iff_mem'] at h <;> cases n <;>
    simp [pendOf] at h

theorem toRPN_fmt (root : Node) (hwf : WFNode root) :
    toRPN (tokensOfNode root) = .ok (postfixOfNode root) := by
  have h := toRPNGo_fmt root hwf [] [] []
  rw [List.append_nil] at h
  show toRPNGo (tokensOfNode root) [] [] = _
  rw [h, toRPNGo_nilE, if_neg (pend_no_paren root)]
  simp [flush_pend]

/-! ## Evaluating a rendered postfix sequence -/

theorem opArity_one_iff (k : OpKey) : opArity k = 1 ↔ k = OpKey.NOT := by
  cases k <;> decide

theorem evalRPNGo_postfix (env : Env) :
    ∀ (n : Node), WFNode n → (∀ x ∈ nodeVars n, (env x).isSome) →
      ∀ (rest : List Token) (stack : List Bool),
        evalRPNGo env (postfixOfNode n ++ rest) stack
          = evalRPNGo env rest (evalNodeD n env :: stack) := by
  intro n
  induction n with
  | var id name =>
    intro _ hb rest stack
    have hs : (env name).isSome := hb name (by simp [nodeVars])
    obtain ⟨v, hv⟩ := Option.isSome_iff_exists.mp hs
    have hD : evalNodeD (Node.var id name) env = v := by simp [evalNodeD, hv]
    show evalRPNGo env (Token.ident name :: rest) stack = _
    rw [evalRPNGo_identE, hv, hD]
  | const id v =>
    intro _ _ rest stack
    show evalRPNGo env (Token.const v (if v then "T" else "F") :: rest) stack = _
    rw [evalRPNGo_constE]
    rfl
  | unop id k a iha =>
    rintro ⟨hk, hwa⟩ hb rest stack
    subst hk
    rw [show postfixOfNode (Node.unop id OpKey.NOT a) ++ rest
        = postfixOfNode a ++ (Token.op OpKey.NOT (opLabel OpKey.NOT) :: rest)
      from by simp [postfixOfNode, List.append_assoc]]
    rw [iha hwa hb, evalRPNGo_opE, if_pos (by decide : opArity OpKey.NOT = 1)]
    rfl
  | binop id k a b iha ihb =>
    rintro ⟨hk, hwa, hwb⟩ hb rest stack
    rw [show postfixOfNode (Node.binop id k a b) ++ rest
        = postfixOfNode a ++ (postfixOfNode b
            ++ (Token.op k (opLabel k) :: rest))
      from by simp [postfixOfNode, List.append_assoc]]
    rw [iha hwa (fun x hx => hb x (List.mem_append_left _ hx)),
      ihb hwb (fun x hx => hb x (List.mem_append_right _ hx)),
      evalRPNGo_opE, if_neg (fun hc => hk ((opArity_one_iff k).mp hc))]
    rfl

/-! ## Every identifier the scanner emits is a well-formed name -/

theorem exmap_ok {α β : Type} {x : Except String α} {f : α → β} {y : β}
    (h : x.map f = .ok y) : ∃ a, x = .ok a ∧ y = f a := by
  cases x with
  | error e => simp [Except.map] at h
  | ok a =>
    refine ⟨a, rfl, ?_⟩
    replace h : Except.ok (f a) = Except.ok y := h
    injection h with h
    exact h.symm

theorem tokenizeGo_ident_wf :
    ∀ (fuel : Nat) (l : List Char) (i : Nat) (toks : List Token),
      tokenizeGo fuel l i = .ok toks →
      ∀ name, Token.ident name ∈ toks → WFName name := by
  intro fuel
  induction fuel with
  | zero =>
    intro l i toks hok name hmem
    cases l with
    | nil =>
      rw [tokenizeGo_nilE] at hok
      injection hok with hok
      subst hok
      simp at hmem
    | cons c cs =>
      rw [tokenizeGo_zeroE] at hok
      exact Except.noConfusion hok
  | succ g ih =>
    intro l i toks hok name hmem
    cases l with
    | nil =>
      rw [tokenizeGo_nilE] at hok
      injection hok with hok
      subst hok
      simp at hmem
    | cons c cs =>
      rw [tokenizeGo_consE] at hok
      by_cases hws : c = ' ' ∨ c = '\t' ∨ c = '\n' ∨ c = '\r'
      · rw [if_pos hws] at hok
        exact ih _ _ _ hok name hmem
      · rw [if_neg hws] at hok
        by_cases hlp : c = '('
        · rw [if_pos hlp] at hok
          obtain ⟨ts2, hrec, htoks⟩ := exmap_ok hok
          subst htoks
          rcases List.mem_cons.mp hmem with heq | hmem2
          · exact absurd heq (by simp)
          · exact ih _ _ _ hrec name hmem2
        · rw [if_neg hlp] at hok
          by_cases hrp : c = ')'
          · rw [if_pos hrp] at hok
            obtain ⟨ts2, hrec, htoks⟩ := exmap_ok hok
            subst htoks
            rcases List.mem_cons.mp hmem with heq | hmem2
            · exact absurd heq (by simp)
            · exact ih _ _ _ hrec name hmem2
          · rw [if_neg hrp] at hok
            cases hmo : matchOperatorAt (c :: cs) with
            | some mk =>
              obtain ⟨m, k⟩ := mk
              rw [hmo] at hok
              replace hok : (tokenizeGo g ((c :: cs).drop m.data.length)
                  (i + m.data.length)).map (fun ts => Token.op k m :: ts)
                = .ok toks := hok
              obtain ⟨ts2, hrec, htoks⟩ := exmap_ok hok
              subst htoks
              rcases List.mem_cons.mp hmem with heq | hmem2
              · exact absurd heq (by simp)
              · exact ih _ _ _ hrec name hmem2
            | none =>
              rw [hmo] at hok
              by_cases hstart : isIdentStart c
              · rw [if_pos hstart] at hok
                replace hok : (tokenizeGo g (cs.dropWhile isIdentPart)
                    (i + (c :: cs.takeWhile isIdentPart).length)).map
                    (fun ts =>
                      tkOfWord (String.mk (c :: cs.takeWhile isIdentPart)) :: ts)
                  = .ok toks := hok
                obtain ⟨ts2, hrec, htoks⟩ := exmap_ok hok
                subst htoks
                rcases List.mem_cons.mp hmem with heq | hmem2
                · cases hlk : ConstLexemes.lookup
                    (toLowerStr (String.mk (c :: cs.takeWhile isIdentPart))) with
                  | some b =>
                    replace heq : Token.ident name
                        = (match ConstLexemes.lookup (toLowerStr
                            (String.mk (c :: cs.takeWhile isIdentPart))) with
                          | some b =>
                            Token.const b (String.mk (c :: cs.takeWhile isIdentPart))
                          | none =>
                            match OperatorLexemes.find? (fun o => o.1 == toLowerStr
                              (String.mk (c :: cs.takeWhile isIdentPart))) with
                            | some o =>
                              Token.op o.2 (String.mk (c :: cs.takeWhile isIdentPart))
                            | none =>
                              Token.ident (String.mk (c :: cs.takeWhile isIdentPart)))
                      := heq
                    rw [hlk] at heq
                    exact absurd heq (by simp)
                  | none =>
                    cases hfd : OperatorLexemes.find? (fun o => o.1 == toLowerStr
                        (String.mk (c :: cs.takeWhile isIdentPart))) with
                    | some o =>
                      replace heq : Token.ident name
                          = (match OperatorLexemes.find? (fun o => o.1 == toLowerStr
                              (String.mk (c :: cs.takeWhile isIdentPart))) with
                            | some o =>
                              Token.op o.2 (String.mk (c :: cs.takeWhile isIdentPart))
                            | none =>
                              Token.ident (String.mk (c :: cs.takeWhile isIdentPart)))
                        := by
                        rw [tkOfWord, hlk] at heq
                        exact heq
                      rw [hfd] at heq
                      exact absurd heq (by simp)
                    | none =>
                      replace heq : Token.ident name
                          = Token.ident (String.mk (c :: cs.takeWhile isIdentPart))
                        := by
                        rw [tkOfWord, hlk, hfd] at heq
                        exact heq
                      injection heq with heq
                      subst heq
                      refine ⟨?_, ?_, ?_⟩
                      · exact ⟨hstart, fun x hx => List.mem_takeWhile_imp hx⟩
                      · intro p hp
                        cases hb : p.1.data.isPrefixOf
                            (String.mk (c :: cs.takeWhile isIdentPart)).data with
                        | false => rfl
                        | true =>
                          exfalso
                          have hpre : p.1.data <+: (c :: cs.takeWhile isIdentPart) :=
                            List.isPrefixOf_iff_prefix.mp hb
                          have hpre2 : p.1.data <+: (c :: cs) := by
                            refine hpre.trans ?_
                            obtain ⟨t, ht⟩ :=
                              List.takeWhile_prefix (l := cs) isIdentPart
                            exact ⟨t, by rw [List.cons_append, ht]⟩
                          have hno := List.find?_eq_none.mp hmo p hp
                          exact hno (List.isPrefixOf_iff_prefix.mpr hpre2)
                      · rw [tkOfWord, hlk, hfd]
                · exact ih _ _ _ hrec name hmem2
              · rw [if_neg hstart] at hok
                by_cases hdig : isDigit c
                · rw [if_pos hdig] at hok
                  by_cases hnum : (String.mk (c :: cs.takeWhile isDigit) = "0"
                      ∨ String.mk (c :: cs.takeWhile isDigit) = "1")
                  · rw [if_pos hnum] at hok
                    obtain ⟨ts2, hrec, htoks⟩ := exmap_ok hok
                    subst htoks
                    rcases List.mem_cons.mp hmem with heq | hmem2
                    · exact absurd heq (by simp)
                    · exact ih _ _ _ hrec name hmem2
                  · rw [if_neg hnum] at hok
                    exact Except.noConfusion hok
                · rw [if_neg hdig] at hok
                  exact Except.noConfusion hok

/-! ## ASTs built from scanner output are well-formed -/

theorem rpnToAstGo_wf :
    ∀ (toks : List Token) (stack : List Node) (nid : Nat) (root : Node),
      rpnToAstGo toks stack nid = .ok root →
      (∀ name, Token.ident name ∈ toks → WFName name) →
      (∀ m ∈ stack, WFNode m) →
      WFNode root := by
  intro toks
  induction toks with
  | nil =>
    intro stack nid root hok hids hstk
    cases stack with
    | nil => exact Except.noConfusion hok
    | cons n rest2 =>
      cases rest2 with
      | nil =>
        replace hok : Except.ok n = Except.ok root := hok
        injection hok with hok
        subst hok
        exact hstk n (List.mem_cons_self _ _)
      | cons _ _ => exact Except.noConfusion hok
  | cons t rest ih =>
    intro stack nid root hok hids hstk
    cases t with
    | ident name =>
      rw [rpnToAstGo_identE] at hok
      refine ih _ _ _ hok (fun nm hnm => hids nm (List.mem_cons_of_mem _ hnm)) ?_
      intro m hm
      rcases List.mem_cons.mp hm with rfl | hm2
      · exact hids name (List.mem_cons_self _ _)
      · exact hstk m hm2
    | const v raw =>
      rw [rpnToAstGo_constE] at hok
      refine ih _ _ _ hok (fun nm hnm => hids nm (List.mem_cons_of_mem _ hnm)) ?_
      intro m hm
      rcases List.mem_cons.mp hm with rfl | hm2
      · exact trivial
      · exact hstk m hm2
    | op k raw =>
      rw [rpnToAstGo_opE] at hok
      by_cases h1 : opArity k = 1
      · rw [if_pos h1] at hok
        cases stack with
        | nil => exact Except.noConfusion hok
        | cons a s =>
          refine ih _ _ _ hok
            (fun nm hnm => hids nm (List.mem_cons_of_mem _ hnm)) ?_
          intro m hm
          rcases List.mem_cons.mp hm with rfl | hm2
          · exact ⟨(opArity_one_iff k).mp h1, hstk a (List.mem_cons_self _ _)⟩
          · exact hstk m (List.mem_cons_of_mem _ hm2)
      · rw [if_neg h1] at hok
        cases stack with
        | nil => exact Except.noConfusion hok
        | cons b s0 =>
          cases s0 with
          | nil => exact Except.noConfusion hok
          | cons a s =>
            refine ih _ _ _ hok
              (fun nm hnm => hids nm (List.mem_cons_of_mem _ hnm)) ?_
            intro m hm
            rcases List.mem_cons.mp hm with rfl | hm2
            · exact ⟨fun hc => h1 (by rw [hc]; rfl),
                hstk a (List.mem_cons_of_mem _ (List.mem_cons_self _ _)),
                hstk b (List.mem_cons_self _ _)⟩
            · exact hstk m
                (List.mem_cons_of_mem _ (List.mem_cons_of_mem _ hm2))
    | lparen => exact Except.noConfusion hok
    | rparen => exact Except.noConfusion hok

theorem tokenize_fmt (root : Node) (hwf : WFNode root) :
    tokenize (formatNode root) = .ok (tokensOfNode root) := by
  obtain ⟨hne, hhead, hlast⟩ := formatNode_ends root hwf
  have htrim : jsTrimList (formatNode root).data = (formatNode root).data :=
    jsTrim_eq_self _ hhead hlast
  show tokenizeList (jsTrimList (formatNode root).data) 0 = _
  rw [htrim]
  show tokenizeGo (formatNode root).data.length (formatNode root).data 0 = _
  obtain ⟨f', i', hl, heq⟩ := tokenizeGo_fmt root [] 0
    (formatNode root).data.length hwf trivial (by rw [List.append_nil])
  rw [List.append_nil] at heq
  rw [heq, tokenizeGo_nilE]
  simp [Except.map]

/-- C8: rendering round-trip.  For every AST `root` actually produced by the
pipeline (`tokenize`, `toRPN`, `rpnToAst`), re-tokenizing its canonical
rendering `formatNode root` succeeds, converting those tokens to postfix
succeeds, and evaluating the resulting postfix sequence agrees with the
node evaluator `computeValue` on every assignment binding the node's free
variables. -/
theorem claim_render_round_trip (input : String) (toks rpn : List Token)
    (root : Node)
    (h0 : tokenize input = .ok toks)
    (h1 : toRPN toks = .ok rpn)
    (h2 : rpnToAst rpn = .ok root) :
    tokenize (formatNode root) = .ok (tokensOfNode root)
    ∧ toRPN (tokensOfNode root) = .ok (postfixOfNode root)
    ∧ ∀ env : Env, (∀ x ∈ nodeVars root, (env x).isSome) →
        evalRPN (postfixOfNode root) env
          = (computeValue root env []).map Prod.fst := by
  have hids_toks : ∀ name, Token.ident name ∈ toks → WFName name := by
    intro name h
    exact tokenizeGo_ident_wf _ _ _ _ h0 name h
  have hids_rpn : ∀ name, Token.ident name ∈ rpn → WFName name := by
    intro name h
    rcases toRPNGo_idents toks [] [] rpn h1 name h with h | h | h
    · exact hids_toks name h
    · simp at h
    · simp at h
  have hwf : WFNode root :=
    rpnToAstGo_wf rpn [] 1 root h2 hids_rpn (by intro m hm; simp at hm)
  refine ⟨tokenize_fmt root hwf, toRPN_fmt root hwf, ?_⟩
  intro env hb
  have hnd : (idsOf root).Nodup :=
    rpnToAstGo_ids rpn [] 1 root h2 (by simp [idsOfStack])
      (by intro x hx; simp [idsOfStack] at hx)
  obtain ⟨c', hc', -⟩ := computeValue_correct root env hnd hb root
    (Occurs_refl root) [] (by intro p hp; simp at hp)
  have heval : evalRPN (postfixOfNode root) env = .ok (evalNodeD root env) := by
    show evalRPNGo env (postfixOfNode root) [] = _
    have hstep := evalRPNGo_postfix env root hwf hb [] []
    rw [List.append_nil] at hstep
    rw [hstep]
    rfl
  rw [heval, hc']
  rfl

/-- Witness for C8: the pipeline on `"!a"` yields the AST `!a`, whose
rendering round-trips. -/
theorem claim_render_round_trip_witness :
    tokenize (formatNode (Node.unop 2 OpKey.NOT (Node.var 1 "a")))
      = .ok (tokensOfNode (Node.unop 2 OpKey.NOT (Node.var 1 "a")))
    ∧ toRPN (tokensOfNode (Node.unop 2 OpKey.NOT (Node.var 1 "a")))
      = .ok (postfixOfNode (Node.unop 2 OpKey.NOT (Node.var 1 "a")))
    ∧ ∀ env : Env, (∀ x ∈ nodeVars (Node.unop 2 OpKey.NOT (Node.var 1 "a")),
        (env x).isSome) →
        evalRPN (postfixOfNode (Node.unop 2 OpKey.NOT (Node.var 1 "a"))) env
          = (computeValue (Node.unop 2 OpKey.NOT (Node.var 1 "a")) env []).map
              Prod.fst :=
  claim_render_round_trip "!a"
    [Token.op OpKey.NOT "!", Token.ident "a"]
    [Token.ident "a", Token.op OpKey.NOT "!"]
    (Node.unop 2 OpKey.NOT (Node.var 1 "a"))
    rfl rfl rfl

end TruthTable
